import Mathlib

/-!
# A shallow embedding of the `xul` headers

## Stripool, `xul/stripool.hpp`

The pool is embedded as a record holding its configuration, the hint and two
typed memories keyed by byte address: the 32-bit strip header words
(`StripHdr::countAndHead`) and the back-pointer cells (`StripPtr::strip`).
Addresses are natural numbers, a null pointer is `none`.

Machine arithmetic follows the source: `std::uint32_t` values are reduced
modulo `2 ^ 32` where the source assigns to a 32-bit variable, and the
`std::size_t` strip index is reduced modulo `2 ^ 64` when it is incremented.
The sequential model lets every `compare_exchange_weak` succeed; the
interleaved model lets it succeed exactly when the header word still equals
the expected word.

Platform constants are those of x86-64: `sizeof(StripHdr) = 8`,
`sizeof(StripPtr) = 16`, `alignof(StripPtr) = 8`,
`alignof(std::max_align_t) = 16`.

A second embedding, `BytePool`, keeps the backing buffer as one memory of
bytes, so that a back pointer stored outside its strip lands where the source
stores it.

## FNV-1a hash, enum wrapper and type lists

`xul/fnv_hash.hpp`, `xul/enum.hpp` and `xul/variadic.hpp` are embedded in the
namespaces `Fnv`, `Xenum` and `Variadic`. Enumerator values are integers; the
underlying type of an enum is given by its signedness and width where the
source computes in it, and a sum that overflows `int` or a wider signed type
has no defined result.
-/

namespace Stripool

/-! ## Constants -/

/-- Size of the strip header, `sizeof(StripHdr)` (`striphdr_size`). -/
def striphdr_size : Nat := 8

/-- Size of the back-pointer block, `sizeof(StripPtr)` (`stripptr_size`). -/
def stripptr_size : Nat := 16

/-- Alignment of the back-pointer block, `alignof(StripPtr)`. -/
def stripptr_align : Nat := 8

/-- Mask of the allocation count, the upper 8 bits of a header word. -/
def count_mask_ : Nat := 0xFF000000

/-- Amount to shift a header word to obtain the count. -/
def count_shift_ : Nat := 24

/-- Increment of the allocation count inside a header word. -/
def count_inc_ : Nat := 0x01000000

/-- Mask of the head, the lower 24 bits of a header word. -/
def head_mask_ : Nat := 0x00FFFFFF

/-- Head field decoded from a header word. -/
def headOf (w : Nat) : Nat := w &&& head_mask_

/-- Count field decoded from a header word. -/
def countOf (w : Nat) : Nat := (w &&& count_mask_) >>> count_shift_

/-! ## Memory and pool state -/

/-- Memory cells keyed by byte address. -/
abbrev Mem := Nat → Nat

/-- Store `v` in the cell at address `a`. -/
def Mem.set (m : Mem) (a v : Nat) : Mem := fun x => if x = a then v else m x

/-- State of a `Stripool` together with the memory it manages. -/
structure Pool where
  /-- Raw byte size of a strip, `stripSize_`. -/
  stripSize_ : Nat
  /-- Number of strips, `stripCount_`. -/
  stripCount_ : Nat
  /-- Address of the backing buffer, `stripMem_`. -/
  stripMem_ : Nat
  /-- The hint, `currentStrip_`. -/
  currentStrip_ : Nat
  /-- Header word stored at each address, `StripHdr::countAndHead`. -/
  countAndHead : Mem
  /-- Back pointer stored at each address, `StripPtr::strip`. -/
  strip : Mem

/-- Address of strip `i`, `stripAt(i)`. -/
def Pool.stripAt (p : Pool) (i : Nat) : Nat := p.stripMem_ + i * p.stripSize_

/-- Header words written by the constructor loop over the first `k` strips. -/
def initHeaders (rawStripSize stripMem : Nat) (m : Mem) : Nat → Mem
  | 0 => m
  | k + 1 => (initHeaders rawStripSize stripMem m k).set (stripMem + k * rawStripSize) striphdr_size

/-- The constructor `Stripool(rawStripSize, stripCount, stripMem)`, run on a
backing buffer whose previous contents are `hdr0` and `ptr0`. -/
def Pool.init (rawStripSize stripCount stripMem : Nat) (hdr0 ptr0 : Mem) : Pool where
  stripSize_ := rawStripSize
  stripCount_ := stripCount
  stripMem_ := stripMem
  currentStrip_ := 0
  countAndHead := initHeaders rawStripSize stripMem hdr0 stripCount
  strip := ptr0

/-! ## acquire -/

/-- Step 3 of `acquire`, taken when the request fits the strip at `stripIdx`:
fold the padding into the reservation, install the updated header word, write
the back pointer at the old head, store the hint and return the address past
the back pointer. -/
def Pool.carve (p : Pool) (requested stripIdx : Nat) : Option Nat × Pool :=
  let strip := p.stripAt (stripIdx % p.stripCount_)
  let countAndHead := p.countAndHead strip
  let head := countAndHead &&& head_mask_
  let padding := stripptr_align - requested % stripptr_align
  let padded := if head + padding < p.stripSize_ then (requested + padding) % 2 ^ 32
    else requested
  let update := (countAndHead + count_inc_ + padded) % 2 ^ 32
  (some (strip + head + stripptr_size),
    { p with
      countAndHead := p.countAndHead.set strip update
      strip := p.strip.set (strip + head) strip
      currentStrip_ := stripIdx })

/-- The `while (true)` loop of `acquire`. The first argument bounds the number
of iterations; `acquire` passes `stripCount_`, which the loop never exhausts
because every iteration that does not return increments `interrogated`. -/
def Pool.acquireLoop (p : Pool) (requested : Nat) : Nat → Nat → Nat → Option Nat × Pool
  | 0, _, _ => (none, p)
  | fuel + 1, stripIdx, interrogated =>
    let strip := p.stripAt (stripIdx % p.stripCount_)
    let countAndHead := p.countAndHead strip
    let head := countAndHead &&& head_mask_
    if head + requested > p.stripSize_ then
      if interrogated + 1 ≥ p.stripCount_ then (none, p)
      else p.acquireLoop requested fuel ((stripIdx + 1) % 2 ^ 64) (interrogated + 1)
    else p.carve requested stripIdx

/-- The member function `acquire(requested)`: the result pointer (`none` for
`nullptr`) and the pool afterwards. -/
def Pool.acquire (p : Pool) (requested : Nat) : Option Nat × Pool :=
  p.acquireLoop ((requested + stripptr_size) % 2 ^ 32) p.stripCount_ p.currentStrip_ 0

/-! ## release -/

/-- Header word that `release` installs in place of `expected`. -/
def releaseWord (expected : Nat) : Nat :=
  let desired := (expected + 2 ^ 32 - count_inc_) % 2 ^ 32
  if desired &&& count_mask_ = 0 then striphdr_size else desired

/-- The static member function `release(mem)`. -/
def Pool.release (p : Pool) (mem : Nat) : Pool :=
  let s := p.strip (mem - stripptr_size)
  { p with countAndHead := p.countAndHead.set s (releaseWord (p.countAndHead s)) }

/-- The request `n` fits strip `i`: `head + n + 16 <= stripSize`. -/
def Pool.fits (p : Pool) (n i : Nat) : Prop :=
  headOf (p.countAndHead (p.stripAt i)) + n + stripptr_size ≤ p.stripSize_

instance (p : Pool) (n i : Nat) : Decidable (p.fits n i) := by
  unfold Pool.fits; infer_instance

/-! ## Call sequences

The sequential executions of the pool: a caller issues `acquire` and `release`
calls one after the other and keeps the pointers it has acquired and not yet
released. The list of those live allocations is bookkeeping of the caller, not
state of the pool. -/

/-- A live allocation: the pointer `acquire` returned, the size that was
requested, and the strip address found in its back pointer when it was made. -/
structure Live where
  /-- Address of the strip the allocation was carved from. -/
  owner : Nat
  /-- The pointer returned by `acquire`. -/
  ptr : Nat
  /-- The number of bytes requested. -/
  size : Nat
deriving DecidableEq

/-- First byte of the range reserved for an allocation, its back-pointer block. -/
def Live.start (a : Live) : Nat := a.ptr - stripptr_size

/-- One past the last byte of the range reserved for an allocation. -/
def Live.stop (a : Live) : Nat := a.ptr + a.size

/-- The reserved ranges of two allocations do not intersect. -/
def Live.disjoint (a b : Live) : Prop := a.stop ≤ b.start ∨ b.stop ≤ a.start

/-- A pool and the allocations its caller holds. -/
structure Sys where
  /-- The pool. -/
  pool : Pool
  /-- The allocations acquired and not yet released. -/
  live : List Live

/-- A call made by the caller. -/
inductive Op where
  | acquire (requested : Nat)
  | release (mem : Nat)

/-- Effect of one call. A `release` is valid only for a pointer that is live;
an invalid call has no successor state. -/
def Sys.step (s : Sys) : Op → Option Sys
  | .acquire requested =>
    match s.pool.acquire requested with
    | (none, q) => some ⟨q, s.live⟩
    | (some m, q) => some ⟨q, ⟨q.strip (m - stripptr_size), m, requested⟩ :: s.live⟩
  | .release mem =>
    match s.live.find? (fun a => a.ptr = mem) with
    | none => none
    | some a => some ⟨s.pool.release mem, s.live.erase a⟩

/-- Effect of a sequence of calls. -/
def Sys.run (s : Sys) : List Op → Option Sys
  | [] => some s
  | op :: ops => (s.step op).bind (fun t => t.run ops)

/-- A freshly constructed pool with no allocation made yet. -/
def Sys.init (rawStripSize stripCount stripMem : Nat) (hdr0 ptr0 : Mem) : Sys :=
  ⟨Pool.init rawStripSize stripCount stripMem hdr0 ptr0, []⟩

/-- Every `acquire` of the sequence requests fewer than `2 ^ 32 - 16` bytes, so
that adding the back-pointer size does not wrap. -/
def requestsInRange (ops : List Op) : Prop :=
  ∀ n, Op.acquire n ∈ ops → n < 2 ^ 32 - 16

/-- The documented limits of the header encoding: the strip size is at most
`2 ^ 24 - 16`, and no strip can hold more than 255 allocations. A reservation
takes at least 24 bytes (the back pointer and padding) and the first one starts
at offset 8, so a strip of `S` bytes holds at most `S / 24` allocations. -/
def withinLimits (stripSize : Nat) : Prop :=
  stripSize ≤ 2 ^ 24 - 16 ∧ stripSize / 24 ≤ 255

/-- Number of live allocations carved from the strip at address `b`. -/
def liveIn (live : List Live) (b : Nat) : Nat := live.countP (fun a => a.owner = b)

/-- What the header word `w` of the strip at address `b` records about the
live allocations. -/
def HdrOK (stripSize : Nat) (live : List Live) (b w : Nat) : Prop :=
  ∃ h, w = liveIn live b * 2 ^ 24 + h ∧ 8 + 24 * liveIn live b ≤ h ∧ h ≤ stripSize + 8 ∧
    h % 8 = 0 ∧ (liveIn live b = 0 → h = 8) ∧ ∀ a ∈ live, a.owner = b → a.stop ≤ b + h

/-- A live allocation lies in the data area of the strip its back pointer names. -/
def AllocOK (p : Pool) (a : Live) : Prop :=
  (∃ i < p.stripCount_, a.owner = p.stripAt i) ∧ stripptr_size ≤ a.ptr ∧
    p.strip a.start = a.owner ∧ a.owner + striphdr_size ≤ a.start ∧
    a.stop ≤ a.owner + p.stripSize_

/-- The invariant of the sequential executions. -/
def Inv (s : Sys) : Prop :=
  (∀ i < s.pool.stripCount_,
      HdrOK s.pool.stripSize_ s.live (s.pool.stripAt i) (s.pool.countAndHead (s.pool.stripAt i))) ∧
    (∀ a ∈ s.live, AllocOK s.pool a) ∧ s.live.Pairwise Live.disjoint

/-- The results of `m` consecutive calls `acquire(n)` with no release in
between, and the pool afterwards. -/
def Pool.acquireMany (p : Pool) (n : Nat) : Nat → List (Option Nat) × Pool
  | 0 => ([], p)
  | m + 1 => ((p.acquire n).1 :: ((p.acquire n).2.acquireMany n m).1,
      ((p.acquire n).2.acquireMany n m).2)

/-- Bytes by which one allocation of `n` bytes advances the head: the request
plus the back pointer, plus the padding `8 - a mod 8`. -/
def reservation (n : Nat) : Nat := n + 16 + (8 - (n + 16) % 8)

/-- Number of allocations of `n` bytes that a strip of `S` bytes holds, as the
exhaustion property computes it: `0` if `8 + a > S`, else
`floor((S - 8 - a) / step) + 1`, with `a = n + 16` and `step = a + (8 - a mod 8)`. -/
def capacity (S n : Nat) : Nat :=
  if 8 + (n + 16) > S then 0 else (S - 8 - (n + 16)) / reservation n + 1

/-- State of a fresh pool that has served consecutive same-size requests: the
strips before `j` are full, strip `j` holds `c` allocations and is the hint,
the strips after `j` are pristine. -/
def Filled (S N mem n : Nat) (p : Pool) (j c : Nat) : Prop :=
  p.stripSize_ = S ∧ p.stripCount_ = N ∧ p.stripMem_ = mem ∧ p.currentStrip_ = j ∧ j < N ∧
    c ≤ capacity S n ∧
    (∀ i < j, p.countAndHead (p.stripAt i)
      = capacity S n * 2 ^ 24 + (8 + capacity S n * reservation n)) ∧
    p.countAndHead (p.stripAt j) = c * 2 ^ 24 + (8 + c * reservation n) ∧
    ∀ i, j < i → i < N → p.countAndHead (p.stripAt i) = striphdr_size

/-- The loop of `acquire` finds no room in the strip visited at index `x`. -/
def Pool.misses (p : Pool) (requested x : Nat) : Prop :=
  headOf (p.countAndHead (p.stripAt (x % p.stripCount_))) + requested > p.stripSize_

instance (p : Pool) (r x : Nat) : Decidable (p.misses r x) := by
  unfold Pool.misses; infer_instance

/-- The configuration of the pool is the same in both states. -/
def sameConfig (s t : Sys) : Prop :=
  t.pool.stripSize_ = s.pool.stripSize_ ∧ t.pool.stripCount_ = s.pool.stripCount_ ∧
    t.pool.stripMem_ = s.pool.stripMem_

/-! ## Concrete pools used in the examples -/

/-- A backing buffer filled with zeroes. -/
def zeroMem : Mem := fun _ => 0

/-- The calls of a short session: three allocations, one release, one more
allocation. -/
def sessionOps : List Op :=
  [.acquire 16, .acquire 16, .acquire 16, .release 24, .acquire 16]

/-- A pool of three 48-byte strips whose hint is the largest `size_t` value:
strips 0 and 1 hold one allocation each with the head at 48, strip 2 is
pristine. -/
def wrappedHintPool : Pool :=
  ⟨48, 3, 0, 2 ^ 64 - 1, fun a => if a = 96 then 8 else 0x01000030, zeroMem⟩

/-- A pool of four 48-byte strips with the hint at its greatest value: strips
0, 1 and 3 are at head 48 and strip 2 is pristine. -/
def wrappedHintPool4 : Pool :=
  ⟨48, 4, 0, 2 ^ 64 - 1, fun a => if a = 96 then 8 else 0x01000030, zeroMem⟩

/-- A header word is pristine: count 0 and the head just past the header. -/
def pristine (w : Nat) : Prop := countOf w = 0 ∧ headOf w = striphdr_size

instance (w : Nat) : Decidable (pristine w) := by
  unfold pristine; infer_instance

/-! ## Backing-storage sizing -/

/-- The maximum alignment, `alignof(std::max_align_t)`. -/
def max_align : Nat := 16

/-- The function `ArrayStripool<strip_size_, strip_count_>::raw_strip_size()`,
in `std::size_t` arithmetic. -/
def raw_strip_size (strip_size_ : Nat) : Nat :=
  let size := (strip_size_ + striphdr_size + stripptr_size) % 2 ^ 64
  (size + size % max_align) % 2 ^ 64

/-- Every strip head of the pool is a multiple of the alignment of the
back-pointer block. -/
def headsAligned (p : Pool) : Prop :=
  ∀ i < p.stripCount_, headOf (p.countAndHead (p.stripAt i)) % stripptr_align = 0

/-- The pool of one strip of 6144 bytes after 255 consecutive calls
`acquire(0)` from construction, 24 bytes each. -/
def fullCountPool : Pool :=
  ((Pool.init 6144 1 0 zeroMem zeroMem).acquireMany 0 255).2

/-- The calls of a caller that allocates zero bytes 255 times. -/
def fillOps : List Op := List.replicate 255 (.acquire 0)

/-! ## Interleaved executions

Each thread runs `acquire` or `release` as a sequence of atomic actions on the
shared pool: a load of the hint, a load of a header word, a compare-and-swap
on a header word. A thread keeps its local variables between its actions, and
a scheduler picks the thread that acts next. -/

/-- Where a thread stands inside a call of `acquire`, with its local
variables. -/
inductive AcquireAt where
  /-- The call has been made with the given size and has not executed yet. -/
  | entry (requested : Nat)
  /-- At the top of the loop, before the load of the header word. -/
  | top (requested stripIdx interrogated : Nat)
  /-- Before `compare_exchange_weak`: the request fits the loaded word and
  `requested` has received the padding. -/
  | exchange (requested stripIdx interrogated countAndHead : Nat)
  /-- After a successful exchange, before the back pointer is written. -/
  | exchanged (stripIdx countAndHead : Nat)
  /-- After the back pointer is written, before the hint is stored. -/
  | linked (stripIdx ret : Nat)
  /-- The call has returned. -/
  | returned (ret : Option Nat)
deriving DecidableEq

/-- Where a thread stands inside a call of `release`, with its local
variables. -/
inductive ReleaseAt where
  /-- The call has been made with the given pointer and has not executed yet. -/
  | entry (mem : Nat)
  /-- Before `compare_exchange_weak`, holding the strip address and the
  expected header word. -/
  | exchange (s expectedCountAndHead : Nat)
  /-- The call has returned. -/
  | returned
deriving DecidableEq

/-- One atomic action of a thread inside `acquire`. -/
def Pool.acquireStep (p : Pool) : AcquireAt → Pool × AcquireAt
  | .entry requested =>
    (p, .top ((requested + stripptr_size) % 2 ^ 32) p.currentStrip_ 0)
  | .top requested stripIdx interrogated =>
    let strip := p.stripAt (stripIdx % p.stripCount_)
    let countAndHead := p.countAndHead strip
    let head := countAndHead &&& head_mask_
    if head + requested > p.stripSize_ then
      if interrogated + 1 ≥ p.stripCount_ then (p, .returned none)
      else (p, .top requested ((stripIdx + 1) % 2 ^ 64) (interrogated + 1))
    else
      let padding := stripptr_align - requested % stripptr_align
      let padded := if head + padding < p.stripSize_ then (requested + padding) % 2 ^ 32
        else requested
      (p, .exchange padded stripIdx interrogated countAndHead)
  | .exchange requested stripIdx interrogated countAndHead =>
    let strip := p.stripAt (stripIdx % p.stripCount_)
    let update := (countAndHead + count_inc_ + requested) % 2 ^ 32
    if p.countAndHead strip = countAndHead then
      ({ p with countAndHead := p.countAndHead.set strip update },
        .exchanged stripIdx countAndHead)
    else (p, .top requested stripIdx interrogated)
  | .exchanged stripIdx countAndHead =>
    let strip := p.stripAt (stripIdx % p.stripCount_)
    let head := countAndHead &&& head_mask_
    ({ p with strip := p.strip.set (strip + head) strip },
      .linked stripIdx (strip + head + stripptr_size))
  | .linked stripIdx ret =>
    ({ p with currentStrip_ := stripIdx }, .returned (some ret))
  | .returned ret => (p, .returned ret)

/-- One atomic action of a thread inside `release`. -/
def Pool.releaseStep (p : Pool) : ReleaseAt → Pool × ReleaseAt
  | .entry mem =>
    let s := p.strip (mem - stripptr_size)
    (p, .exchange s (p.countAndHead s))
  | .exchange s expectedCountAndHead =>
    if p.countAndHead s = expectedCountAndHead then
      ({ p with countAndHead := p.countAndHead.set s (releaseWord expectedCountAndHead) },
        .returned)
    else (p, .exchange s (p.countAndHead s))
  | .returned => (p, .returned)

/-- A thread is inside a call of `acquire` or of `release`. -/
inductive Thread where
  | acquiring (pc : AcquireAt)
  | releasing (pc : ReleaseAt)
deriving DecidableEq

/-- One atomic action of a thread. -/
def Pool.threadStep (p : Pool) : Thread → Pool × Thread
  | .acquiring pc => ((p.acquireStep pc).1, .acquiring (p.acquireStep pc).2)
  | .releasing pc => ((p.releaseStep pc).1, .releasing (p.releaseStep pc).2)

/-- The shared pool and the threads that work on it. -/
structure Conc where
  /-- The shared pool. -/
  pool : Pool
  /-- The threads, each inside one call. -/
  threads : List Thread

/-- The thread with index `tid` performs its next atomic action. -/
def Conc.step (c : Conc) (tid : Nat) : Conc :=
  match c.threads.get? tid with
  | none => c
  | some t => ⟨(c.pool.threadStep t).1, c.threads.set tid (c.pool.threadStep t).2⟩

/-- The threads act in the order the schedule gives. -/
def Conc.run (c : Conc) : List Nat → Conc
  | [] => c
  | tid :: rest => (c.step tid).run rest

/-- A thread inside `acquire` performs `k` actions with no other thread acting
in between. -/
def Pool.acquireSteps (p : Pool) (pc : AcquireAt) : Nat → Pool × AcquireAt
  | 0 => (p, pc)
  | k + 1 => (p.acquireStep pc).1.acquireSteps (p.acquireStep pc).2 k

/-- Two threads that both call `acquire(32)` on the fresh pool of three
126-byte strips that `ArrayStripool<95, 3>` builds. -/
def raceStart : Conc :=
  ⟨Pool.init 126 3 0 zeroMem zeroMem, [.acquiring (.entry 32), .acquiring (.entry 32)]⟩

/-! ## Header codec, scan trace and the allocator adapter -/

/-- The header word with count `c` and head `h`: the count in the upper 8
bits, the head in the lower 24 bits. -/
def pack (c h : Nat) : Nat := c * 2 ^ 24 + h

/-- The loop of `acquire` with a record of the strips whose header it loads,
in the order of the loads. The result and the pool are computed as in
`acquireLoop`. -/
def Pool.acquireLoopLoads (p : Pool) (requested : Nat) :
    Nat → Nat → Nat → (Option Nat × Pool) × List Nat
  | 0, _, _ => ((none, p), [])
  | fuel + 1, stripIdx, interrogated =>
    let strip := p.stripAt (stripIdx % p.stripCount_)
    let countAndHead := p.countAndHead strip
    let head := countAndHead &&& head_mask_
    if head + requested > p.stripSize_ then
      if interrogated + 1 ≥ p.stripCount_ then ((none, p), [stripIdx % p.stripCount_])
      else
        ((p.acquireLoopLoads requested fuel ((stripIdx + 1) % 2 ^ 64) (interrogated + 1)).1,
          (stripIdx % p.stripCount_) ::
            (p.acquireLoopLoads requested fuel ((stripIdx + 1) % 2 ^ 64) (interrogated + 1)).2)
    else (p.carve requested stripIdx, [stripIdx % p.stripCount_])

/-- The strips whose header the call `acquire(requested)` loads, in order. -/
def Pool.acquireLoads (p : Pool) (requested : Nat) : List Nat :=
  (p.acquireLoopLoads ((requested + stripptr_size) % 2 ^ 32) p.stripCount_ p.currentStrip_ 0).2

/-- The member function `StripoolMemoryResource::do_allocate(bytes, alignment)`
of `xul/stripool_pmr.hpp`: the `std::size_t` byte count is passed to
`acquire`, whose parameter is a `std::uint32_t`. -/
def do_allocate (p : Pool) (bytes _alignment : Nat) : Option Nat × Pool :=
  p.acquire (bytes % 2 ^ 32)

/-! ## The pool over its byte buffer

The same member functions with the backing buffer as one memory of bytes, in
which the header words and the back pointers are stored side by side as the
source lays them out (little-endian, 4-byte header word, 8-byte pointer). -/

/-- The value of the `width` bytes at address `a`, least significant first. -/
def Mem.load (m : Mem) : Nat → Nat → Nat
  | _, 0 => 0
  | a, width + 1 => m a % 256 + 256 * m.load (a + 1) width

/-- Store the `width` low bytes of `v` at address `a`, least significant
first. -/
def Mem.store : Mem → Nat → Nat → Nat → Mem
  | m, _, _, 0 => m
  | m, a, v, width + 1 => Mem.store (m.set a (v % 256)) (a + 1) (v / 256) width

/-- State of a `Stripool` together with the bytes of its backing buffer. -/
structure BytePool where
  /-- Raw byte size of a strip, `stripSize_`. -/
  stripSize_ : Nat
  /-- Number of strips, `stripCount_`. -/
  stripCount_ : Nat
  /-- Address of the backing buffer, `stripMem_`. -/
  stripMem_ : Nat
  /-- The hint, `currentStrip_`. -/
  currentStrip_ : Nat
  /-- The byte stored at each address. -/
  bytes : Mem

/-- Address of strip `i`, `stripAt(i)`. -/
def BytePool.stripAt (p : BytePool) (i : Nat) : Nat := p.stripMem_ + i * p.stripSize_

/-- The header word of the strip at address `strip`, `strip->countAndHead`. -/
def BytePool.countAndHead (p : BytePool) (strip : Nat) : Nat := p.bytes.load strip 4

/-- The constructor loop over the first `k` strips: each header word is set to
`sizeof(StripHdr)`. -/
def initBytes (rawStripSize stripMem : Nat) (m : Mem) : Nat → Mem
  | 0 => m
  | k + 1 => (initBytes rawStripSize stripMem m k).store (stripMem + k * rawStripSize)
      striphdr_size 4

/-- The constructor `Stripool(rawStripSize, stripCount, stripMem)`, run on a
backing buffer whose previous contents are `bytes0`. -/
def BytePool.init (rawStripSize stripCount stripMem : Nat) (bytes0 : Mem) : BytePool where
  stripSize_ := rawStripSize
  stripCount_ := stripCount
  stripMem_ := stripMem
  currentStrip_ := 0
  bytes := initBytes rawStripSize stripMem bytes0 stripCount

/-- Step 3 of `acquire` on the byte buffer: the exchange stores the updated
header word at the strip, then the back pointer is stored at `strip + head`,
the hint is stored and the address past the back-pointer block is returned. -/
def BytePool.carve (p : BytePool) (requested stripIdx : Nat) : Option Nat × BytePool :=
  let strip := p.stripAt (stripIdx % p.stripCount_)
  let countAndHead := p.countAndHead strip
  let head := countAndHead &&& head_mask_
  let padding := stripptr_align - requested % stripptr_align
  let padded := if head + padding < p.stripSize_ then (requested + padding) % 2 ^ 32
    else requested
  let update := (countAndHead + count_inc_ + padded) % 2 ^ 32
  (some (strip + head + stripptr_size),
    { p with
      bytes := ((p.bytes.store strip update 4).store (strip + head) strip 8)
      currentStrip_ := stripIdx })

/-- The `while (true)` loop of `acquire` on the byte buffer, with the bound on
the number of iterations as in `Pool.acquireLoop`. -/
def BytePool.acquireLoop (p : BytePool) (requested : Nat) :
    Nat → Nat → Nat → Option Nat × BytePool
  | 0, _, _ => (none, p)
  | fuel + 1, stripIdx, interrogated =>
    let strip := p.stripAt (stripIdx % p.stripCount_)
    let countAndHead := p.countAndHead strip
    let head := countAndHead &&& head_mask_
    if head + requested > p.stripSize_ then
      if interrogated + 1 ≥ p.stripCount_ then (none, p)
      else p.acquireLoop requested fuel ((stripIdx + 1) % 2 ^ 64) (interrogated + 1)
    else p.carve requested stripIdx

/-- The member function `acquire(requested)` on the byte buffer. -/
def BytePool.acquire (p : BytePool) (requested : Nat) : Option Nat × BytePool :=
  p.acquireLoop ((requested + stripptr_size) % 2 ^ 32) p.stripCount_ p.currentStrip_ 0

/-- The static member function `release(mem)` on the byte buffer: the strip is
read from the back pointer that precedes `mem`. -/
def BytePool.release (p : BytePool) (mem : Nat) : BytePool :=
  let s := p.bytes.load (mem - stripptr_size) 8
  { p with bytes := p.bytes.store s (releaseWord (p.countAndHead s)) 4 }

/-- A fresh pool of two 48-byte strips whose buffer, all zero before the
constructor, is at address 4096. -/
def twoStrips : BytePool := BytePool.init 48 2 4096 zeroMem

/-- The pool `twoStrips` after `acquire(16)`. -/
def twoStripsAcquired : BytePool := (twoStrips.acquire 16).2

/-- The pool `twoStrips` after `acquire(16)` and `acquire(4294967280)`. -/
def twoStripsWrapped : BytePool := (twoStripsAcquired.acquire 4294967280).2

end Stripool

/-! # FNV-1a hash, `xul/fnv_hash.hpp` -/

namespace Fnv

/-- The function template `fnv1a<H, T>(std::span<const T>)` for an unsigned
hash type `H` of `sizeofH` bytes and `T = char`. A `char` is a signed 8-bit
value; in `hash ^= b` it is promoted to `int` and converted to the unsigned
type of the operation, that is reduced modulo `2 ^ (8 * sizeofH)`. The
product with the prime is converted back to `H`. -/
def fnv1a (sizeofH : Nat) (data : List Int) : Nat :=
  let prime : Nat := if sizeofH = 4 then 0x01000193 else 0x00000100000001b3
  let basis : Nat := if sizeofH = 4 then 0x811c9dc5 else 0xcbf29ce484222325
  data.foldl
    (fun hash b => ((hash ^^^ (b % 2 ^ (8 * sizeofH)).toNat) * prime) % 2 ^ (8 * sizeofH))
    basis

/-- The function `fnv1a_32` on a `std::string_view`, given as its `char`s. -/
def fnv1a_32 (data : List Int) : Nat := fnv1a 4 data

/-- The function `fnv1a_64` on a `std::string_view`, given as its `char`s. -/
def fnv1a_64 (data : List Int) : Nat := fnv1a 8 data

/-- The reference 32-bit FNV-1a hash of a sequence of octets: start at
`0x811c9dc5`; for each byte `h := ((h xor byte) * 0x01000193) mod 2 ^ 32`. -/
def reference32 (octets : List Nat) : Nat :=
  octets.foldl (fun h byte => ((h ^^^ byte) * 0x01000193) % 2 ^ 32) 0x811c9dc5

/-- The reference 64-bit FNV-1a hash of a sequence of octets: start at
`0xcbf29ce484222325`; multiply by `0x00000100000001b3` modulo `2 ^ 64`. -/
def reference64 (octets : List Nat) : Nat :=
  octets.foldl (fun h byte => ((h ^^^ byte) * 0x00000100000001b3) % 2 ^ 64)
    0xcbf29ce484222325

/-- The `char`s of the string `"foobar"`. -/
def foobar : List Int := [102, 111, 111, 98, 97, 114]

end Fnv

/-! # Enum wrapper, `xul/enum.hpp`

The macro `xul_enum(name, underlying_type, ...)` is given by the underlying
values of its enumerators in declaration order; the preprocessor library that
expands the argument list is not part of the sources. A value of the wrapper
holds one value of the underlying type. -/

namespace Xenum

/-- The function `xenum::first`: the least of the enumerators. -/
def first : List Int → Int
  | [] => 0
  | e :: es => es.foldl (fun f x => min f x) e

/-- The function `xenum::last`: the greatest of the enumerators. -/
def last : List Int → Int
  | [] => 0
  | e :: es => es.foldl (fun f x => max f x) e

/-- A value of the wrapper struct, holding `value_`. -/
structure Enum where
  /-- The held enumerator, as its underlying value. -/
  value_ : Int
deriving DecidableEq

/-- The member function `to_ult`. -/
def Enum.to_ult (e : Enum) : Int := e.value_

/-- The static member function `try_mk` of an enum with the given enumerators,
on a value of the underlying type. -/
def try_mk (enumerators : List Int) (t : Int) : Option Enum :=
  if t < (Enum.mk (first enumerators)).to_ult then none
  else if t > (Enum.mk (last enumerators)).to_ult then none
  else some (Enum.mk t)

/-- The enumerators of `xul_enum(Foo, int, (apple, 10), banana, carrot)`. -/
def Foo : List Int := [10, 11, 12]

/-- The enumerators of an enum as the macro arguments declare them: each with
its name and its underlying value, in declaration order. -/
abbrev Decl := List (String × Int)

/-- The underlying values of the declared enumerators. -/
def values (decl : Decl) : List Int := decl.map Prod.snd

/-- The static member function `count`: the number of macro arguments. -/
def count (decl : Decl) : Nat := decl.length

/-- The member function `to_string` of the enum `name`: the `switch` over the
enumerators, and `"?name?"` when no case matches. -/
def to_string (name : String) (decl : Decl) (e : Enum) : String :=
  match decl.find? (fun d => d.2 = e.value_) with
  | some d => d.1
  | none => "?" ++ name ++ "?"

/-- The struct `xenum::range<E>`. -/
structure Range where
  /-- The first enumerator of the range. -/
  first : Enum
  /-- The last enumerator of the range. -/
  last : Enum

/-- The static member function `range()` with its default arguments. -/
def range (decl : Decl) : Range :=
  ⟨⟨first (values decl)⟩, ⟨last (values decl)⟩⟩

/-- The member function `range::begin`: the iterator, as its `value_`. -/
def Range.begin (r : Range) : Int := r.first.to_ult

/-- The underlying integer type `ult` of the wrapped enum: whether it is
signed, and its width in bits. -/
structure Ult where
  /-- The type is a signed integer type. -/
  signed : Bool
  /-- The width of the type in bits. -/
  bits : Nat

/-- The least value of the underlying type. -/
def Ult.min (u : Ult) : Int := if u.signed then -(2 ^ u.bits / 2) else 0

/-- The greatest value of the underlying type. -/
def Ult.max (u : Ult) : Int := if u.signed then 2 ^ u.bits / 2 - 1 else 2 ^ u.bits - 1

/-- Conversion of an integer to the underlying type: reduction modulo
`2 ^ bits` into the range of the type. -/
def Ult.conv (u : Ult) (v : Int) : Int := (v - u.min) % 2 ^ u.bits + u.min

/-- The value of `v + 1` stored back into the underlying type, as in
`stop.to_ult() + 1` and `++value_`. A type narrower than `int` is promoted,
so the sum is exact and the result is converted back; for `unsigned` and wider
unsigned types the sum wraps; for `int` and wider signed types the sum
overflows when `v` is the greatest value, which is undefined (`none`). -/
def Ult.plusOne (u : Ult) (v : Int) : Option Int :=
  if u.bits < 32 then some (u.conv (v + 1))
  else if u.signed then (if v + 1 ≤ u.max then some (v + 1) else none)
  else some (u.conv (v + 1))

/-- The underlying type `int`. -/
def Ult.int : Ult := ⟨true, 32⟩

/-- The member function `range::end`: the end iterator, as its `stop`. -/
def Range.stop (u : Ult) (r : Range) : Option Int := u.plusOne r.last.to_ult

/-- The range-based `for` loop over an iterator and an end iterator: the
enums it visits, or `none` when an increment is undefined or the loop has not
ended within the bound. -/
def forLoop (u : Ult) (stop : Int) : Nat → Int → Option (List Enum)
  | 0, _ => none
  | bound + 1, value_ =>
    if value_ ≠ stop then
      (u.plusOne value_).bind
        (fun next => (forLoop u stop bound next).map (fun rest => ⟨value_⟩ :: rest))
    else some []

/-- The loop `for (auto f : E::range())` of an enum with underlying type `u`. -/
def iterate (u : Ult) (decl : Decl) (bound : Nat) : Option (List Enum) :=
  ((range decl).stop u).bind (fun stop => forLoop u stop bound (range decl).begin)

/-- The enumerators are contiguous and distinct: no value is declared twice
and every value between the least and the greatest is declared. -/
def contiguous (decl : Decl) : Prop :=
  (values decl).Nodup ∧
    ∀ v, first (values decl) ≤ v → v ≤ last (values decl) → v ∈ values decl

/-- The declaration `xul_enum(Foo, int, (apple, 10), banana, carrot)`. -/
def FooDecl : Decl := [("apple", 10), ("banana", 11), ("carrot", 12)]

/-- The declaration `xul_enum(Top, int, (almost, 2147483646), most)`. -/
def TopDecl : Decl := [("almost", 2147483646), ("most", 2147483647)]

end Xenum

/-! # Type lists, `xul/variadic.hpp`

A type list `tlist<ts...>` is the list of its types. An instantiation that is
ill-formed has no type, `none`. -/

namespace Variadic

/-- The member `tlist_left<n, tlist<ts...>>::mk<i, u, us...>(tlist<vs...>)`,
as the type it returns. The call needs a first type `u`; with no type left
there is no function to call. -/
def tlist_left_mk {α : Type} : Nat → List α → List α → Option (List α)
  | _, [], _ => none
  | 0, _ :: _, vs => some vs
  | i + 1, u :: us, vs => tlist_left_mk i us (vs ++ [u])

/-- The alias `tlist_left_t<n, tlist<ts...>>`. -/
def tlist_left_t {α : Type} (n : Nat) (ts : List α) : Option (List α) :=
  tlist_left_mk n ts []

/-- The member `tlist_right<n, tlist<ts...>>::mk<i, u, us...>()`, as the type
it returns; `i` is `unsigned`, so `i - 1` wraps at zero. -/
def tlist_right_mk {α : Type} : Nat → List α → Option (List α)
  | _, [] => none
  | i, _ :: us => if i = 0 then tlist_right_mk ((i + 2 ^ 32 - 1) % 2 ^ 32) us else some us

/-- The alias `tlist_right_t<n, tlist<ts...>>`, for `n` up to the size of the
list. -/
def tlist_right_t {α : Type} (n : Nat) (ts : List α) : Option (List α) :=
  tlist_right_mk ((ts.length - n) % 2 ^ 32) ts

/-- The types that occur in the tests. -/
inductive Ty where
  | int
  | char
  | bool
deriving DecidableEq

end Variadic

namespace Stripool

/-! ## Header word arithmetic -/

theorem headOf_eq (w : Nat) : headOf w = w % 2 ^ 24 := by
  have h := Nat.and_pow_two_sub_one_eq_mod w 24
  simpa [headOf, head_mask_] using h

theorem land_count_mask (w : Nat) : w &&& count_mask_ = w / 2 ^ 24 % 2 ^ 8 * 2 ^ 24 := by
  apply Nat.eq_of_testBit_eq
  intro i
  have h1 : count_mask_ = 2 ^ 24 * (2 ^ 8 - 1) := by norm_num [count_mask_]
  rw [Nat.testBit_and, h1, Nat.mul_comm (w / 2 ^ 24 % 2 ^ 8), Nat.testBit_mul_pow_two,
    Nat.testBit_mul_pow_two, Nat.testBit_two_pow_sub_one, Nat.testBit_mod_two_pow,
    ← Nat.shiftRight_eq_div_pow, Nat.testBit_shiftRight]
  by_cases h : 24 ≤ i
  · have h2 : 24 + (i - 24) = i := by omega
    simp [h, h2, Bool.and_comm]
  · simp [h]

theorem countOf_eq (w : Nat) : countOf w = w / 2 ^ 24 % 2 ^ 8 := by
  unfold countOf
  rw [land_count_mask, count_shift_, Nat.shiftRight_eq_div_pow]
  exact Nat.mul_div_cancel _ (by norm_num)

theorem headOf_pack (c h : Nat) (hh : h < 2 ^ 24) : headOf (c * 2 ^ 24 + h) = h := by
  rw [headOf_eq]; omega

theorem countOf_pack (c h : Nat) (hc : c ≤ 255) (hh : h < 2 ^ 24) :
    countOf (c * 2 ^ 24 + h) = c := by
  rw [countOf_eq]; omega

theorem word_eq_pack (w : Nat) (hw : w < 2 ^ 32) : w = countOf w * 2 ^ 24 + headOf w := by
  rw [countOf_eq, headOf_eq]; omega

theorem releaseWord_pack (c h : Nat) (hc1 : 1 ≤ c) (hc : c ≤ 255) (hh : h < 2 ^ 24) :
    releaseWord (c * 2 ^ 24 + h) = if c = 1 then striphdr_size else (c - 1) * 2 ^ 24 + h := by
  unfold releaseWord
  have hd : (c * 2 ^ 24 + h + 2 ^ 32 - count_inc_) % 2 ^ 32 = (c - 1) * 2 ^ 24 + h := by
    simp only [count_inc_]; omega
  simp only [hd, land_count_mask]
  by_cases h1 : c = 1
  · subst h1; simp; omega
  · have h2 : ((c - 1) * 2 ^ 24 + h) / 2 ^ 24 % 2 ^ 8 * 2 ^ 24 ≠ 0 := by omega
    rw [if_neg h2, if_neg h1]

/-! ## The scan loop -/

theorem acquireLoop_succ (p : Pool) (r fuel idx i : Nat) :
    p.acquireLoop r (fuel + 1) idx i =
      if p.misses r idx then
        if i + 1 ≥ p.stripCount_ then (none, p)
        else p.acquireLoop r fuel ((idx + 1) % 2 ^ 64) (i + 1)
      else p.carve r idx := rfl

theorem carve_fst (p : Pool) (r x : Nat) :
    (p.carve r x).1 = some (p.stripAt (x % p.stripCount_)
      + headOf (p.countAndHead (p.stripAt (x % p.stripCount_))) + stripptr_size) := rfl

/-- Every run of the loop either gives up and leaves the pool as it was, or
carves the request from a strip in which it fits. -/
theorem acquireLoop_cases (p : Pool) (r : Nat) : ∀ fuel idx i,
    p.acquireLoop r fuel idx i = (none, p) ∨
      ∃ x, ¬ p.misses r x ∧ p.acquireLoop r fuel idx i = p.carve r x := by
  intro fuel
  induction fuel with
  | zero => intro idx i; exact Or.inl rfl
  | succ fuel ih =>
    intro idx i
    rw [acquireLoop_succ]
    by_cases hm : p.misses r idx
    · by_cases hi : i + 1 ≥ p.stripCount_
      · simp [hm, hi]
      · simpa [hm, hi] using ih ((idx + 1) % 2 ^ 64) (i + 1)
    · right; exact ⟨idx, hm, by simp [hm]⟩

/-- The iteration bound does not matter once it covers the strips that
remain to be interrogated. -/
theorem acquireLoop_fuel (p : Pool) (r : Nat) : ∀ fuel1 fuel2 idx i,
    p.stripCount_ ≤ fuel1 + i → p.stripCount_ ≤ fuel2 + i → i < p.stripCount_ →
    p.acquireLoop r fuel1 idx i = p.acquireLoop r fuel2 idx i := by
  intro fuel1
  induction fuel1 with
  | zero => intro fuel2 idx i h1 _ h3; omega
  | succ f1 ih =>
    intro fuel2 idx i h1 h2 h3
    cases fuel2 with
    | zero => omega
    | succ f2 =>
      rw [acquireLoop_succ, acquireLoop_succ]
      by_cases hm : p.misses r idx
      · by_cases hi : i + 1 ≥ p.stripCount_
        · simp [hm, hi]
        · simp only [hm, hi, if_true, if_false]
          exact ih f2 _ (i + 1) (by omega) (by omega) (by omega)
      · simp [hm]

/-- The bound that `acquire` passes to the loop is never exhausted: any larger
bound gives the same result. -/
theorem acquire_bound_enough (p : Pool) (n extra : Nat) (hN : 1 ≤ p.stripCount_) :
    p.acquire n = p.acquireLoop ((n + stripptr_size) % 2 ^ 32) (p.stripCount_ + extra)
      p.currentStrip_ 0 :=
  acquireLoop_fuel p _ p.stripCount_ (p.stripCount_ + extra) p.currentStrip_ 0
    (by omega) (by omega) (by omega)

/-- The loop carves the request from the first strip, in scan order, in which
it fits, provided the strip index does not wrap before reaching it. -/
theorem acquireLoop_first_fit (p : Pool) (r : Nat) : ∀ k fuel idx i,
    k < fuel → i + k < p.stripCount_ → idx + k < 2 ^ 64 →
    (∀ j < k, p.misses r (idx + j)) → ¬ p.misses r (idx + k) →
    p.acquireLoop r fuel idx i = p.carve r (idx + k) := by
  intro k
  induction k with
  | zero =>
    intro fuel idx i hf _ _ _ hfit
    obtain ⟨f, rfl⟩ : ∃ f, fuel = f + 1 := ⟨fuel - 1, by omega⟩
    rw [acquireLoop_succ]
    simp only [Nat.add_zero] at hfit ⊢
    simp [hfit]
  | succ k ih =>
    intro fuel idx i hf hi hw hmiss hfit
    obtain ⟨f, rfl⟩ : ∃ f, fuel = f + 1 := ⟨fuel - 1, by omega⟩
    rw [acquireLoop_succ]
    have h0 : p.misses r idx := by simpa using hmiss 0 (by omega)
    have hi1 : ¬ (i + 1 ≥ p.stripCount_) := by omega
    have hwrap : (idx + 1) % 2 ^ 64 = idx + 1 := Nat.mod_eq_of_lt (by omega)
    simp only [h0, hi1, if_true, if_false, hwrap]
    have e : idx + (k + 1) = idx + 1 + k := by omega
    rw [e] at hfit ⊢
    refine ih f (idx + 1) (i + 1) (by omega) (by omega) (by omega) ?_ hfit
    intro j hj
    have := hmiss (j + 1) (by omega)
    rwa [show idx + (j + 1) = idx + 1 + j by omega] at this

/-- When no strip has room the loop returns null. -/
theorem acquireLoop_all_miss (p : Pool) (r : Nat) (hN : 1 ≤ p.stripCount_)
    (hall : ∀ s < p.stripCount_, headOf (p.countAndHead (p.stripAt s)) + r > p.stripSize_) :
    ∀ fuel idx i, p.acquireLoop r fuel idx i = (none, p) := by
  intro fuel
  induction fuel with
  | zero => intro idx i; rfl
  | succ fuel ih =>
    intro idx i
    rw [acquireLoop_succ]
    have hm : p.misses r idx := hall _ (Nat.mod_lt _ (by omega))
    by_cases hi : i + 1 ≥ p.stripCount_
    · simp [hm, hi]
    · simpa [hm, hi] using ih _ _

/-! ## Carving under the documented limits -/

theorem Mem.set_same (m : Mem) (a v : Nat) : m.set a v a = v := by simp [Mem.set]

theorem Mem.set_other (m : Mem) (a v x : Nat) (h : x ≠ a) : m.set a v x = m x := by
  simp [Mem.set, h]

theorem stripAt_separated (p : Pool) (i j : Nat) (h : i < j) :
    p.stripAt i + p.stripSize_ ≤ p.stripAt j := by
  unfold Pool.stripAt
  have : (i + 1) * p.stripSize_ ≤ j * p.stripSize_ := Nat.mul_le_mul_right _ h
  rw [Nat.add_mul] at this
  omega

theorem carve_config (p : Pool) (r x : Nat) :
    (p.carve r x).2.stripSize_ = p.stripSize_ ∧ (p.carve r x).2.stripCount_ = p.stripCount_ ∧
      (p.carve r x).2.stripMem_ = p.stripMem_ := ⟨rfl, rfl, rfl⟩

/-- The state after carving `n + 16` bytes from a strip whose header holds
count `c` and head `h`, when neither field can overflow. -/
theorem carve_pack (p : Pool) (n x c h : Nat) (hn : n < 2 ^ 32 - 16)
    (hS : p.stripSize_ ≤ 2 ^ 24 - 16) (hc : c < 255) (hh : h < 2 ^ 24)
    (hw : p.countAndHead (p.stripAt (x % p.stripCount_)) = c * 2 ^ 24 + h)
    (hfit : ¬ p.misses (n + 16) x) :
    p.carve (n + 16) x = (some (p.stripAt (x % p.stripCount_) + h + 16),
      { p with
        countAndHead := p.countAndHead.set (p.stripAt (x % p.stripCount_))
          ((c + 1) * 2 ^ 24 + (h + (n + 16 + (8 - (n + 16) % 8))))
        strip := p.strip.set (p.stripAt (x % p.stripCount_) + h) (p.stripAt (x % p.stripCount_))
        currentStrip_ := x }) := by
  unfold Pool.misses at hfit
  rw [hw, headOf_pack c h hh] at hfit
  have hhd : (c * 2 ^ 24 + h) &&& head_mask_ = h := headOf_pack c h hh
  unfold Pool.carve
  simp only [hw, hhd, stripptr_align, stripptr_size, count_inc_]
  have h1 : h + (8 - (n + 16) % 8) < p.stripSize_ := by omega
  have h2 : (n + 16 + (8 - (n + 16) % 8)) % 2 ^ 32 = n + 16 + (8 - (n + 16) % 8) :=
    Nat.mod_eq_of_lt (by omega)
  have h3 : (c * 2 ^ 24 + h + 16777216 + (n + 16 + (8 - (n + 16) % 8))) % 2 ^ 32
      = (c + 1) * 2 ^ 24 + (h + (n + 16 + (8 - (n + 16) % 8))) := by omega
  rw [if_pos h1, h2, h3]

/-! ## The invariant is preserved -/

theorem acquire_cases (p : Pool) (n : Nat) (hn : n < 2 ^ 32 - 16) :
    p.acquire n = (none, p) ∨
      ∃ x, 1 ≤ p.stripCount_ ∧ ¬ p.misses (n + 16) x ∧ p.acquire n = p.carve (n + 16) x := by
  have hr : (n + stripptr_size) % 2 ^ 32 = n + 16 := by
    simp only [stripptr_size]; omega
  unfold Pool.acquire
  rw [hr]
  by_cases hN : p.stripCount_ = 0
  · left; rw [hN]; rfl
  · rcases acquireLoop_cases p (n + 16) p.stripCount_ p.currentStrip_ 0 with h | ⟨x, hx, h⟩
    · exact Or.inl h
    · exact Or.inr ⟨x, by omega, hx, h⟩

theorem liveIn_cons (a : Live) (live : List Live) (b : Nat) :
    liveIn (a :: live) b = liveIn live b + if a.owner = b then 1 else 0 := by
  unfold liveIn
  rw [List.countP_cons]
  simp

theorem liveIn_erase (a : Live) (live : List Live) (b : Nat) (ha : a ∈ live) :
    liveIn live b = liveIn (live.erase a) b + if a.owner = b then 1 else 0 := by
  rw [← liveIn_cons]
  exact (List.perm_cons_erase ha).countP_eq _

theorem liveIn_eq_zero (live : List Live) (b : Nat) (h : liveIn live b = 0) :
    ∀ a ∈ live, a.owner ≠ b := by
  intro a ha
  have := (List.countP_eq_zero.1 h) a ha
  simpa using this

theorem Live.start_lt_stop (a : Live) (h : stripptr_size ≤ a.ptr) : a.start < a.stop := by
  unfold Live.start Live.stop stripptr_size at *
  omega

/-- An allocation made at the head of a strip lies clear of every allocation
that is already live. -/
theorem inv_old_clear (s : Sys) (hI : Inv s) (i0 h : Nat)
    (hh : ∀ a ∈ s.live, a.owner = s.pool.stripAt i0 → a.stop ≤ s.pool.stripAt i0 + h)
    (a : Live) (ha : a ∈ s.live) :
    a.stop ≤ s.pool.stripAt i0 + h ∨ s.pool.stripAt i0 + s.pool.stripSize_ ≤ a.start := by
  obtain ⟨⟨k, hk, hown⟩, hp, _, hlo, hhi⟩ := hI.2.1 a ha
  by_cases hb : a.owner = s.pool.stripAt i0
  · exact Or.inl (hh a ha hb)
  · have hne : k ≠ i0 := by
      intro e; rw [e] at hown; exact hb hown
    rcases Nat.lt_or_gt_of_ne hne with hlt | hgt
    · have := stripAt_separated s.pool k i0 hlt
      left; omega
    · have := stripAt_separated s.pool i0 k hgt
      right; unfold striphdr_size at hlo; omega

theorem inv_carve (s : Sys) (hI : Inv s) (hL : withinLimits s.pool.stripSize_)
    (n x : Nat) (hn : n < 2 ^ 32 - 16) (hN : 1 ≤ s.pool.stripCount_)
    (hfit : ¬ s.pool.misses (n + 16) x) :
    ∃ m q, s.pool.carve (n + 16) x = (some m, q) ∧
      Inv ⟨q, ⟨q.strip (m - stripptr_size), m, n⟩ :: s.live⟩ := by
  obtain ⟨hS, hcap⟩ := hL
  have hi0 : x % s.pool.stripCount_ < s.pool.stripCount_ := Nat.mod_lt _ (by omega)
  obtain ⟨h, hw, hlo, hhi, h8, hz, hbelow⟩ := hI.1 _ hi0
  have hfit2 := hfit
  unfold Pool.misses at hfit2
  have hlt : h < 2 ^ 24 := by omega
  rw [hw, headOf_pack _ h hlt] at hfit2
  have hc : liveIn s.live (s.pool.stripAt (x % s.pool.stripCount_)) < 255 := by omega
  have hcarve := carve_pack s.pool n x _ h hn hS hc hlt hw hfit
  refine ⟨_, _, hcarve, ?_⟩
  generalize hb : s.pool.stripAt (x % s.pool.stripCount_) = b at *
  generalize hcdef : liveIn s.live b = c at *
  have hstrip : (s.pool.strip.set (b + h) b) (b + h + 16 - stripptr_size) = b := by
    have : b + h + 16 - stripptr_size = b + h := by simp [stripptr_size]
    rw [this, Mem.set_same]
  simp only [hstrip]
  have hclear := fun a ha => inv_old_clear s hI (x % s.pool.stripCount_) h
    (by rw [hb]; exact hbelow) a ha
  rw [hb] at hclear
  refine ⟨?_, ?_, ?_⟩
  · intro i hi
    change HdrOK s.pool.stripSize_ _ (s.pool.stripAt i)
      ((s.pool.countAndHead.set b _) (s.pool.stripAt i))
    by_cases hbi : s.pool.stripAt i = b
    · rw [hbi, Mem.set_same]
      refine ⟨h + (n + 16 + (8 - (n + 16) % 8)), ?_, ?_, ?_, ?_, ?_, ?_⟩
      · rw [liveIn_cons, hcdef]; simp
      · rw [liveIn_cons, hcdef]; simp; omega
      · omega
      · omega
      · rw [liveIn_cons, hcdef]; simp
      · intro a ha hown
        rcases List.mem_cons.1 ha with rfl | ha
        · simp only [Live.stop]; omega
        · have := hbelow a ha hown; omega
    · rw [Mem.set_other _ _ _ _ hbi]
      obtain ⟨hi_, hwi, hloi, hhii, h8i, hzi, hbelowi⟩ := hI.1 i hi
      have hcons : liveIn (⟨b, b + h + 16, n⟩ :: s.live) (s.pool.stripAt i)
          = liveIn s.live (s.pool.stripAt i) := by
        rw [liveIn_cons]; simp [Ne.symm hbi]
      refine ⟨hi_, by rw [hcons]; exact hwi, by rw [hcons]; exact hloi, hhii, h8i,
        by rw [hcons]; exact hzi, ?_⟩
      intro a ha hown
      rcases List.mem_cons.1 ha with rfl | ha
      · exact absurd hown.symm hbi
      · exact hbelowi a ha hown
  · intro a ha
    rcases List.mem_cons.1 ha with rfl | ha
    · refine ⟨⟨_, hi0, hb.symm⟩, ?_, ?_, ?_, ?_⟩
      · simp [stripptr_size]
      · simp [Live.start, stripptr_size, Mem.set_same]
      · simp only [Live.start, stripptr_size, striphdr_size]; omega
      · simp only [Live.stop]
        change b + h + 16 + n ≤ b + s.pool.stripSize_
        omega
    · obtain ⟨hex, hp, hbp, hlo2, hhi2⟩ := hI.2.1 a ha
      refine ⟨hex, hp, ?_, hlo2, hhi2⟩
      change (s.pool.strip.set (b + h) b) a.start = a.owner
      have hlt2 := a.start_lt_stop hp
      have hne : a.start ≠ b + h := by
        rcases hclear a ha with h1 | h1 <;> omega
      rw [Mem.set_other _ _ _ _ hne]; exact hbp
  · refine List.pairwise_cons.2 ⟨?_, hI.2.2⟩
    intro a ha
    obtain ⟨_, hp, _, _, _⟩ := hI.2.1 a ha
    have hlt2 := a.start_lt_stop hp
    unfold Live.disjoint
    simp only [Live.start, Live.stop, stripptr_size] at *
    rcases hclear a ha with h1 | h1
    · right; omega
    · left; omega

theorem sameConfig_refl (s : Sys) : sameConfig s s := ⟨rfl, rfl, rfl⟩

theorem sameConfig_trans {s t u : Sys} (h1 : sameConfig s t) (h2 : sameConfig t u) :
    sameConfig s u :=
  ⟨h2.1.trans h1.1, h2.2.1.trans h1.2.1, h2.2.2.trans h1.2.2⟩

theorem step_acquire (s : Sys) (n : Nat) :
    s.step (.acquire n) =
      match s.pool.acquire n with
      | (none, q) => some ⟨q, s.live⟩
      | (some m, q) => some ⟨q, ⟨q.strip (m - stripptr_size), m, n⟩ :: s.live⟩ := rfl

theorem step_release (s : Sys) (m : Nat) :
    s.step (.release m) =
      match s.live.find? (fun a => a.ptr = m) with
      | none => none
      | some a => some ⟨s.pool.release m, s.live.erase a⟩ := rfl

theorem inv_step_acquire (s t : Sys) (hI : Inv s) (hL : withinLimits s.pool.stripSize_)
    (n : Nat) (hn : n < 2 ^ 32 - 16) (hstep : s.step (.acquire n) = some t) :
    Inv t ∧ sameConfig s t := by
  rw [step_acquire] at hstep
  rcases acquire_cases s.pool n hn with h | ⟨x, hN, hfit, h⟩
  · rw [h] at hstep
    simp only [Option.some.injEq] at hstep
    subst hstep
    exact ⟨hI, sameConfig_refl _⟩
  · obtain ⟨m, q, hc, hInv⟩ := inv_carve s hI hL n x hn hN hfit
    have hcfg := carve_config s.pool (n + 16) x
    rw [h, hc] at hstep
    simp only [Option.some.injEq] at hstep
    subst hstep
    rw [hc] at hcfg
    exact ⟨hInv, hcfg⟩

theorem inv_release (s : Sys) (hI : Inv s) (hL : withinLimits s.pool.stripSize_)
    (a : Live) (ha : a ∈ s.live) :
    Inv ⟨s.pool.release a.ptr, s.live.erase a⟩ := by
  obtain ⟨hS, hcap⟩ := hL
  obtain ⟨⟨i0, hi0, hown⟩, hp, hbp, hlo, hhi⟩ := hI.2.1 a ha
  obtain ⟨h, hw, hlo0, hhi0, h80, hz0, hbelow0⟩ := hI.1 i0 hi0
  have hs : s.pool.strip (a.ptr - stripptr_size) = s.pool.stripAt i0 := by
    rw [← hown]; exact hbp
  have hcnt := liveIn_erase a s.live (s.pool.stripAt i0) ha
  rw [if_pos hown] at hcnt
  have hrel := releaseWord_pack (liveIn s.live (s.pool.stripAt i0)) h (by omega) (by omega)
    (by omega)
  rw [← hw] at hrel
  refine ⟨?_, ?_, ?_⟩
  · intro i hi
    change HdrOK s.pool.stripSize_ (s.live.erase a) (s.pool.stripAt i)
      ((s.pool.countAndHead.set (s.pool.strip (a.ptr - stripptr_size)) _) (s.pool.stripAt i))
    rw [hs]
    by_cases hbi : s.pool.stripAt i = s.pool.stripAt i0
    · rw [hbi, Mem.set_same, hrel]
      by_cases h1 : liveIn s.live (s.pool.stripAt i0) = 1
      · have hzero : liveIn (s.live.erase a) (s.pool.stripAt i0) = 0 := by omega
        rw [if_pos h1]
        refine ⟨8, by rw [hzero]; rfl, by omega, by omega, by omega, fun _ => rfl, ?_⟩
        intro a2 ha2 hown2
        exact absurd hown2 (liveIn_eq_zero _ _ hzero a2 ha2)
      · rw [if_neg h1]
        refine ⟨h, by congr 2; omega, by omega, hhi0, h80, fun e => by omega, ?_⟩
        intro a2 ha2 hown2
        exact hbelow0 a2 (List.mem_of_mem_erase ha2) hown2
    · rw [Mem.set_other _ _ _ _ hbi]
      obtain ⟨hi_, hwi, hloi, hhii, h8i, hzi, hbelowi⟩ := hI.1 i hi
      have hcnti := liveIn_erase a s.live (s.pool.stripAt i) ha
      have hne : ¬ a.owner = s.pool.stripAt i := by
        rw [hown]; exact fun e => hbi e.symm
      rw [if_neg hne, Nat.add_zero] at hcnti
      unfold HdrOK
      rw [← hcnti]
      exact ⟨hi_, hwi, hloi, hhii, h8i, hzi,
        fun a2 ha2 hown2 => hbelowi a2 (List.mem_of_mem_erase ha2) hown2⟩
  · intro a2 ha2
    exact hI.2.1 a2 (List.mem_of_mem_erase ha2)
  · exact hI.2.2.sublist (List.erase_sublist a s.live)

theorem inv_step_release (s t : Sys) (hI : Inv s) (hL : withinLimits s.pool.stripSize_)
    (m : Nat) (hstep : s.step (.release m) = some t) :
    Inv t ∧ sameConfig s t := by
  rw [step_release] at hstep
  cases hf : s.live.find? (fun a => a.ptr = m) with
  | none => rw [hf] at hstep; exact absurd hstep (by simp)
  | some a =>
    rw [hf] at hstep
    simp only [Option.some.injEq] at hstep
    subst hstep
    have ha := List.mem_of_find?_eq_some hf
    have hm : a.ptr = m := by simpa using List.find?_some hf
    subst hm
    exact ⟨inv_release s hI hL a ha, rfl, rfl, rfl⟩

theorem inv_run (ops : List Op) : ∀ (s t : Sys), Inv s → withinLimits s.pool.stripSize_ →
    requestsInRange ops → s.run ops = some t → Inv t ∧ sameConfig s t := by
  induction ops with
  | nil =>
    intro s t hI _ _ hrun
    simp only [Sys.run, Option.some.injEq] at hrun
    subst hrun
    exact ⟨hI, sameConfig_refl _⟩
  | cons op ops ih =>
    intro s t hI hL hR hrun
    simp only [Sys.run] at hrun
    cases hst : s.step op with
    | none => rw [hst] at hrun; exact absurd hrun (by simp)
    | some u =>
      rw [hst] at hrun
      simp only [Option.some_bind] at hrun
      have hu : Inv u ∧ sameConfig s u := by
        cases op with
        | acquire n =>
          exact inv_step_acquire s u hI hL n (hR n (List.mem_cons_self _ _)) hst
        | release m => exact inv_step_release s u hI hL m hst
      have hL2 : withinLimits u.pool.stripSize_ := by rw [hu.2.1]; exact hL
      have hR2 : requestsInRange ops := fun n hn => hR n (List.mem_cons_of_mem _ hn)
      obtain ⟨hIt, hct⟩ := ih u t hu.1 hL2 hR2 hrun
      exact ⟨hIt, sameConfig_trans hu.2 hct⟩

/-! ## Construction -/

theorem initHeaders_strip (S mem : Nat) (m : Mem) : ∀ k i, i < k →
    initHeaders S mem m k (mem + i * S) = striphdr_size := by
  intro k
  induction k with
  | zero => intro i hi; omega
  | succ k ih =>
    intro i hi
    simp only [initHeaders]
    by_cases e : mem + i * S = mem + k * S
    · rw [e, Mem.set_same]
    · rw [Mem.set_other _ _ _ _ e]
      apply ih
      rcases Nat.lt_or_ge i k with h | h
      · exact h
      · exact absurd (by rw [show i = k by omega]) e

/-- Construction leaves every strip header pristine. -/
theorem init_pristine (S N mem : Nat) (hdr0 ptr0 : Mem) (i : Nat) (hi : i < N) :
    (Pool.init S N mem hdr0 ptr0).countAndHead ((Pool.init S N mem hdr0 ptr0).stripAt i)
      = striphdr_size :=
  initHeaders_strip S mem hdr0 N i hi

theorem inv_init (S N mem : Nat) (hdr0 ptr0 : Mem) : Inv (Sys.init S N mem hdr0 ptr0) := by
  refine ⟨?_, ?_, List.Pairwise.nil⟩
  · intro i hi
    change HdrOK _ [] _ ((Pool.init S N mem hdr0 ptr0).countAndHead
      ((Pool.init S N mem hdr0 ptr0).stripAt i))
    rw [init_pristine S N mem hdr0 ptr0 i hi]
    refine ⟨8, by simp [liveIn, striphdr_size], by simp [liveIn], by omega, by omega,
      fun _ => rfl, ?_⟩
    intro a ha; simp at ha
  · intro a ha; simp [Sys.init] at ha

/-- Every state reached from construction by calls within the documented
limits satisfies the invariant and keeps the configuration. -/
theorem inv_reachable (S N mem : Nat) (hdr0 ptr0 : Mem) (ops : List Op) (t : Sys)
    (hL : withinLimits S) (hR : requestsInRange ops)
    (hrun : (Sys.init S N mem hdr0 ptr0).run ops = some t) :
    Inv t ∧ t.pool.stripSize_ = S ∧ t.pool.stripCount_ = N ∧ t.pool.stripMem_ = mem :=
  let h := inv_run ops (Sys.init S N mem hdr0 ptr0) t (inv_init S N mem hdr0 ptr0) hL hR hrun
  ⟨h.1, h.2.1, h.2.2.1, h.2.2.2⟩

/-! ## Reading the invariant off a header word -/

theorem countOf_le (w : Nat) : countOf w ≤ 255 := by
  rw [countOf_eq]; omega

theorem headOf_lt (w : Nat) : headOf w < 2 ^ 24 := by
  rw [headOf_eq]; omega

theorem hdrOK_decode (S : Nat) (live : List Live) (b w : Nat) (hL : withinLimits S)
    (h : HdrOK S live b w) :
    countOf w = liveIn live b ∧ 8 + 24 * countOf w ≤ headOf w ∧ headOf w ≤ S + 8 ∧
      headOf w % 8 = 0 ∧ (countOf w = 0 → headOf w = 8) ∧
      ∀ a ∈ live, a.owner = b → a.stop ≤ b + headOf w := by
  obtain ⟨hS, hcap⟩ := hL
  obtain ⟨hd, hw, hlo, hhi, h8, hz, hbelow⟩ := h
  have hc : countOf w = liveIn live b := by
    rw [hw]; exact countOf_pack _ _ (by omega) (by omega)
  have hh : headOf w = hd := by
    rw [hw]; exact headOf_pack _ _ (by omega)
  rw [hc, hh]
  exact ⟨rfl, hlo, hhi, h8, hz, hbelow⟩

/-- Releasing a live allocation is the call the caller makes with its pointer. -/
theorem step_release_live (s : Sys) (hI : Inv s) (a : Live) (ha : a ∈ s.live) :
    s.step (.release a.ptr) = some ⟨s.pool.release a.ptr, s.live.erase a⟩ := by
  rw [step_release]
  cases hf : s.live.find? (fun x => x.ptr = a.ptr) with
  | none =>
    have := List.find?_eq_none.1 hf a ha
    simp at this
  | some a2 =>
    have ha2 := List.mem_of_find?_eq_some hf
    have hp2 : a2.ptr = a.ptr := by simpa using List.find?_some hf
    have hsym : Symmetric Live.disjoint := fun x y h => Or.symm h
    have heq : a2 = a := by
      by_contra hne
      have hd := hI.2.2.forall hsym ha2 ha hne
      obtain ⟨_, hp, _, _, _⟩ := hI.2.1 a ha
      unfold Live.disjoint Live.start Live.stop stripptr_size at *
      omega
    subst heq
    rfl

/-- Releasing the live allocations one after the other, in any order, is a
valid call sequence, and it ends with no live allocation. -/
theorem release_all (order : List Live) : ∀ s : Sys, Inv s → withinLimits s.pool.stripSize_ →
    order.Perm s.live →
    ∃ u, s.run (order.map (fun a => Op.release a.ptr)) = some u ∧ u.live = [] ∧ Inv u ∧
      sameConfig s u := by
  induction order with
  | nil =>
    intro s hI _ hperm
    exact ⟨s, rfl, List.perm_nil.1 hperm.symm, hI, sameConfig_refl s⟩
  | cons a rest ih =>
    intro s hI hL hperm
    have ha : a ∈ s.live := hperm.mem_iff.1 (List.mem_cons_self _ _)
    have hrest : rest.Perm (s.live.erase a) :=
      (hperm.trans (List.perm_cons_erase ha)).cons_inv
    obtain ⟨u, hrun, hlive, hIu, hcfg⟩ :=
      ih ⟨s.pool.release a.ptr, s.live.erase a⟩ (inv_release s hI hL a ha) hL hrest
    refine ⟨u, ?_, hlive, hIu, hcfg⟩
    simp only [List.map_cons, Sys.run, step_release_live s hI a ha, Option.some_bind]
    exact hrun

/-! ## No overlap, failure without side effects, release, the header invariant -/

theorem sessionOps_inRange : requestsInRange sessionOps := by
  intro n hn
  simp [sessionOps] at hn
  omega

theorem withinLimits_48 : withinLimits 48 := by
  unfold withinLimits; omega

/-- C1. No overlap, sequential model: in every state reached from a freshly
constructed pool whose strip size is within the documented limits, by acquire
calls of fewer than `2 ^ 32 - 16` bytes and releases of live pointers, the
reserved ranges `[ptr - 16, ptr + n)` of the live allocations are pairwise
disjoint, and each begins at its back-pointer block and lies inside the strip
its back pointer names, within `[stripBase + 8, stripBase + stripSize)`. -/
theorem live_ranges_disjoint (S N mem : Nat) (hdr0 ptr0 : Mem) (ops : List Op) (t : Sys)
    (hL : withinLimits S) (hR : requestsInRange ops)
    (hrun : (Sys.init S N mem hdr0 ptr0).run ops = some t) :
    t.live.Pairwise Live.disjoint ∧
      ∀ a ∈ t.live, (∃ i < N, a.owner = mem + i * S) ∧ t.pool.strip a.start = a.owner ∧
        a.start + stripptr_size = a.ptr ∧ a.owner + striphdr_size ≤ a.start ∧
        a.stop ≤ a.owner + S := by
  obtain ⟨hI, hS, hN, hmem⟩ := inv_reachable S N mem hdr0 ptr0 ops t hL hR hrun
  refine ⟨hI.2.2, ?_⟩
  intro a ha
  obtain ⟨⟨i, hi, hown⟩, hp, hbp, hlo, hhi⟩ := hI.2.1 a ha
  refine ⟨⟨i, by omega, ?_⟩, hbp, ?_, hlo, by rw [← hS]; exact hhi⟩
  · rw [hown, Pool.stripAt, hS, hmem]
  · unfold Live.start; omega

theorem live_ranges_disjoint_witness :
    ∃ t, (Sys.init 48 3 0 zeroMem zeroMem).run sessionOps = some t ∧
      t.live.map (fun a => (a.start, a.stop)) = [(8, 40), (104, 136), (56, 88)] ∧
      t.live.Pairwise Live.disjoint :=
  ⟨_, rfl, by decide,
    (live_ranges_disjoint 48 3 0 zeroMem zeroMem sessionOps _ withinLimits_48
      sessionOps_inRange rfl).1⟩

/-- C3. A 32-bit request whose size plus the back-pointer and header sizes
exceeds the strip size is not always refused: on a fresh pool of one 48-byte
strip, `acquire(2 ^ 32 - 16)` wraps the reservation to zero bytes and returns
the non-null pointer at offset 24. -/
theorem oversized_request_wraps :
    (4294967280 : Nat) < 2 ^ 32 ∧
      4294967280 + stripptr_size + striphdr_size > (Pool.init 48 1 0 zeroMem zeroMem).stripSize_ ∧
      ((Pool.init 48 1 0 zeroMem zeroMem).acquire 4294967280).1 = some 24 := by
  decide

/-- C4. Failure is free of side effects: when `acquire` returns null the pool,
with every header word and the hint, is as it was before the call. -/
theorem acquire_null_unchanged (p : Pool) (n : Nat) (h : (p.acquire n).1 = none) :
    (p.acquire n).2 = p := by
  unfold Pool.acquire at *
  rcases acquireLoop_cases p ((n + stripptr_size) % 2 ^ 32) p.stripCount_ p.currentStrip_ 0
    with h1 | ⟨x, _, h1⟩
  · rw [h1]
  · rw [h1, carve_fst] at h
    exact absurd h (by simp)

theorem acquire_null_unchanged_witness :
    ((Pool.init 48 3 0 zeroMem zeroMem).acquire 100).1 = none ∧
      ((Pool.init 48 3 0 zeroMem zeroMem).acquire 100).2 = Pool.init 48 3 0 zeroMem zeroMem :=
  ⟨by decide, acquire_null_unchanged _ 100 (by decide)⟩

/-- C7. No leak, no drift: from every state reached from construction by
acquire and valid release calls within the documented limits, releasing all
live allocations, in any order, is possible and leaves no live allocation and
every strip header equal to the pristine word of a freshly constructed pool. -/
theorem release_all_pristine (S N mem : Nat) (hdr0 ptr0 : Mem) (ops : List Op) (t : Sys)
    (hL : withinLimits S) (hR : requestsInRange ops)
    (hrun : (Sys.init S N mem hdr0 ptr0).run ops = some t)
    (order : List Live) (hperm : order.Perm t.live) :
    ∃ u, t.run (order.map (fun a => Op.release a.ptr)) = some u ∧ u.live = [] ∧
      ∀ i < N, u.pool.countAndHead (u.pool.stripAt i) = striphdr_size ∧
        u.pool.countAndHead (u.pool.stripAt i)
          = (Pool.init S N mem hdr0 ptr0).countAndHead ((Pool.init S N mem hdr0 ptr0).stripAt i) := by
  obtain ⟨hI, hS, hN, hmem⟩ := inv_reachable S N mem hdr0 ptr0 ops t hL hR hrun
  obtain ⟨u, hu, hlive, hIu, hcS, hcN, hcM⟩ := release_all order t hI (by rw [hS]; exact hL) hperm
  refine ⟨u, hu, hlive, ?_⟩
  intro i hi
  obtain ⟨h, hw, _, _, _, hz, _⟩ := hIu.1 i (by omega)
  have hz0 : liveIn u.live (u.pool.stripAt i) = 0 := by rw [hlive]; rfl
  rw [hz0] at hw
  rw [init_pristine S N mem hdr0 ptr0 i hi, hw, hz hz0]
  exact ⟨rfl, rfl⟩

theorem release_all_pristine_witness :
    ∃ t u, (Sys.init 48 3 0 zeroMem zeroMem).run sessionOps = some t ∧
      t.live.map (fun a => a.ptr) = [24, 120, 72] ∧
      t.run [.release 72, .release 24, .release 120] = some u ∧ u.live = [] ∧
      ∀ i < 3, u.pool.countAndHead (u.pool.stripAt i) = striphdr_size :=
  have h := release_all_pristine 48 3 0 zeroMem zeroMem sessionOps _ withinLimits_48
    sessionOps_inRange rfl [⟨48, 72, 16⟩, ⟨0, 24, 16⟩, ⟨96, 120, 16⟩] (by decide)
  ⟨_, h.choose, rfl, by decide, h.choose_spec.1, h.choose_spec.2.1,
    fun i hi => (h.choose_spec.2.2 i hi).1⟩

/-- C8. Release on a header word: for a 32-bit header word with count `c >= 1`
and head `h`, `release` installs the pristine word (count 0, head 8) when
`c = 1`, and the word with count `c - 1` and the same head when `c >= 2`. -/
theorem release_header_word (p : Pool) (mem c h : Nat) (hc : 1 ≤ c)
    (hw : p.countAndHead (p.strip (mem - stripptr_size)) < 2 ^ 32)
    (hcount : countOf (p.countAndHead (p.strip (mem - stripptr_size))) = c)
    (hhead : headOf (p.countAndHead (p.strip (mem - stripptr_size))) = h) :
    (c = 1 →
        (p.release mem).countAndHead (p.strip (mem - stripptr_size)) = striphdr_size ∧
        countOf ((p.release mem).countAndHead (p.strip (mem - stripptr_size))) = 0 ∧
        headOf ((p.release mem).countAndHead (p.strip (mem - stripptr_size))) = striphdr_size) ∧
      (2 ≤ c →
        countOf ((p.release mem).countAndHead (p.strip (mem - stripptr_size))) = c - 1 ∧
        headOf ((p.release mem).countAndHead (p.strip (mem - stripptr_size))) = h) := by
  have hset : (p.release mem).countAndHead (p.strip (mem - stripptr_size))
      = releaseWord (p.countAndHead (p.strip (mem - stripptr_size))) := by
    unfold Pool.release
    exact Mem.set_same _ _ _
  have hpack := word_eq_pack _ hw
  rw [hcount, hhead] at hpack
  have hc255 : c ≤ 255 := hcount ▸ countOf_le _
  have hh : h < 2 ^ 24 := hhead ▸ headOf_lt _
  rw [hset, hpack, releaseWord_pack c h hc hc255 hh]
  constructor
  · intro h1
    rw [if_pos h1]
    exact ⟨rfl, by decide, by decide⟩
  · intro h2
    rw [if_neg (by omega)]
    exact ⟨countOf_pack _ _ (by omega) hh, headOf_pack _ _ hh⟩

theorem release_header_word_witness :
    (Pool.mk 48 1 0 0 (fun _ => 0x02000038) zeroMem).countAndHead 0 < 2 ^ 32 ∧
      countOf ((Pool.release (Pool.mk 48 1 0 0 (fun _ => 0x02000038) zeroMem) 24).countAndHead 0)
        = 1 ∧
      headOf ((Pool.release (Pool.mk 48 1 0 0 (fun _ => 0x02000038) zeroMem) 24).countAndHead 0)
        = 56 :=
  ⟨by decide,
    (release_header_word (Pool.mk 48 1 0 0 (fun _ => 0x02000038) zeroMem) 24 2 56
      (by decide) (by decide) (by decide) (by decide)).2 (by decide)⟩

/-- C9. Strip header invariant: every strip is pristine at construction, and in
every state reached by acquire and valid release calls within the documented
limits every strip has `head >= headerSize`, and `count = 0` exactly when
`head = headerSize`. -/
theorem header_invariant (S N mem : Nat) (hdr0 ptr0 : Mem) :
    (∀ i < N,
        countOf ((Pool.init S N mem hdr0 ptr0).countAndHead
          ((Pool.init S N mem hdr0 ptr0).stripAt i)) = 0 ∧
        headOf ((Pool.init S N mem hdr0 ptr0).countAndHead
          ((Pool.init S N mem hdr0 ptr0).stripAt i)) = striphdr_size) ∧
      ∀ (ops : List Op) (t : Sys), withinLimits S → requestsInRange ops →
        (Sys.init S N mem hdr0 ptr0).run ops = some t →
        ∀ i < N, striphdr_size ≤ headOf (t.pool.countAndHead (t.pool.stripAt i)) ∧
          (countOf (t.pool.countAndHead (t.pool.stripAt i)) = 0 ↔
            headOf (t.pool.countAndHead (t.pool.stripAt i)) = striphdr_size) := by
  constructor
  · intro i hi
    rw [init_pristine S N mem hdr0 ptr0 i hi]
    exact ⟨by decide, by decide⟩
  · intro ops t hL hR hrun i hi
    obtain ⟨hI, hS, hN, _⟩ := inv_reachable S N mem hdr0 ptr0 ops t hL hR hrun
    obtain ⟨_, hlo, _, _, hz, _⟩ := hdrOK_decode _ _ _ _ (by rw [hS]; exact hL) (hI.1 i (by omega))
    unfold striphdr_size
    exact ⟨by omega, hz, fun h8 => by omega⟩

theorem header_invariant_witness :
    ∃ t, (Sys.init 48 3 0 zeroMem zeroMem).run sessionOps = some t ∧
      ∀ i < 3, striphdr_size ≤ headOf (t.pool.countAndHead (t.pool.stripAt i)) ∧
        (countOf (t.pool.countAndHead (t.pool.stripAt i)) = 0 ↔
          headOf (t.pool.countAndHead (t.pool.stripAt i)) = striphdr_size) :=
  ⟨_, rfl, (header_invariant 48 3 0 zeroMem zeroMem).2 sessionOps _ withinLimits_48
    sessionOps_inRange rfl⟩

/-- C10. The head can pass the end of the strip: on a fresh pool of one 48-byte
strip, as `ArrayStripool<24, 1>` builds it, the single call `acquire(24)`
succeeds and leaves the head at 56, beyond the strip size 48. -/
theorem head_passes_strip_end :
    ∃ t, (Sys.init 48 1 0 zeroMem zeroMem).run [.acquire 24] = some t ∧
      t.live.map (fun a => a.ptr) = [24] ∧
      headOf (t.pool.countAndHead (t.pool.stripAt 0)) = 56 ∧ t.pool.stripSize_ = 48 ∧
      ¬ headOf (t.pool.countAndHead (t.pool.stripAt 0)) ≤ t.pool.stripSize_ :=
  ⟨_, rfl, by decide, by decide, by decide, by decide⟩

/-! ## First fit -/

theorem misses_iff (p : Pool) (n x : Nat) :
    p.misses (n + 16) x ↔ ¬ p.fits n (x % p.stripCount_) := by
  unfold Pool.misses Pool.fits stripptr_size
  omega

/-- The scan order reaches every strip. -/
theorem scan_reaches (hint N i : Nat) (hi : i < N) : ∃ k < N, (hint + k) % N = i := by
  have h0 : hint % N < N := Nat.mod_lt _ (by omega)
  have hd : hint = N * (hint / N) + hint % N := (Nat.div_add_mod hint N).symm
  by_cases hle : hint % N ≤ i
  · refine ⟨i - hint % N, by omega, ?_⟩
    have e : hint + (i - hint % N) = N * (hint / N) + i := by omega
    rw [e, Nat.mul_add_mod, Nat.mod_eq_of_lt hi]
  · refine ⟨i + N - hint % N, by omega, ?_⟩
    have e : hint + (i + N - hint % N) = N * (hint / N + 1) + i := by
      rw [Nat.mul_add, Nat.mul_one]; omega
    rw [e, Nat.mul_add_mod, Nat.mod_eq_of_lt hi]

/-! ## The strip index across the scan and across calls -/

/-- The fit test depends on the strip index through its residue only. -/
theorem misses_congr (p : Pool) (r x y : Nat) (h : x % p.stripCount_ = y % p.stripCount_) :
    p.misses r x ↔ p.misses r y := by
  unfold Pool.misses
  rw [h]

/-- Incrementing the strip index advances its residue by one, when the index
does not pass `2 ^ 64` or the strip count divides `2 ^ 64`. -/
theorem next_index_mod (N idx : Nat) (h : idx + 1 < 2 ^ 64 ∨ 2 ^ 64 % N = 0) :
    (idx + 1) % 2 ^ 64 % N = (idx + 1) % N := by
  rcases h with h | h
  · rw [Nat.mod_eq_of_lt h]
  · exact Nat.mod_mod_of_dvd _ (Nat.dvd_of_mod_eq_zero h)

theorem add_mod_congr (N a b j : Nat) (h : a % N = b % N) : (a + j) % N = (b + j) % N := by
  rw [Nat.add_mod a, h, ← Nat.add_mod]

/-- The loop carves the request from the first strip, in scan order, in which
it fits, when the strip index keeps its residue up to that strip. -/
theorem acquireLoop_first_fit_any (p : Pool) (r : Nat) : ∀ k fuel idx i,
    k < fuel → i + k < p.stripCount_ → (idx + k < 2 ^ 64 ∨ 2 ^ 64 % p.stripCount_ = 0) →
    (∀ j < k, p.misses r (idx + j)) → ¬ p.misses r (idx + k) →
    ∃ x, x % p.stripCount_ = (idx + k) % p.stripCount_ ∧
      p.acquireLoop r fuel idx i = p.carve r x := by
  intro k
  induction k with
  | zero =>
    intro fuel idx i hf _ _ _ hfit
    obtain ⟨f, rfl⟩ : ∃ f, fuel = f + 1 := ⟨fuel - 1, by omega⟩
    rw [acquireLoop_succ]
    simp only [Nat.add_zero] at hfit ⊢
    exact ⟨idx, rfl, by simp [hfit]⟩
  | succ k ih =>
    intro fuel idx i hf hi hw hmiss hfit
    obtain ⟨f, rfl⟩ : ∃ f, fuel = f + 1 := ⟨fuel - 1, by omega⟩
    rw [acquireLoop_succ]
    have h0 : p.misses r idx := by simpa using hmiss 0 (by omega)
    have hi1 : ¬ (i + 1 ≥ p.stripCount_) := by omega
    rw [if_pos h0, if_neg hi1]
    have hnext : (idx + 1) % 2 ^ 64 % p.stripCount_ = (idx + 1) % p.stripCount_ :=
      next_index_mod _ _ (by rcases hw with h | h; exact Or.inl (by omega); exact Or.inr h)
    have hres : ∀ j, ((idx + 1) % 2 ^ 64 + j) % p.stripCount_
        = (idx + (j + 1)) % p.stripCount_ := by
      intro j
      rw [add_mod_congr _ _ _ j hnext]
      congr 1
      omega
    have hw2 : (idx + 1) % 2 ^ 64 + k < 2 ^ 64 ∨ 2 ^ 64 % p.stripCount_ = 0 := by
      rcases hw with h | h
      · left
        rw [Nat.mod_eq_of_lt (by omega)]
        omega
      · exact Or.inr h
    obtain ⟨x, hx, hacq⟩ := ih f ((idx + 1) % 2 ^ 64) (i + 1) (by omega) (by omega) hw2
      (fun j hj => (misses_congr p r _ _ (hres j)).2 (hmiss (j + 1) (by omega)))
      (fun h => hfit ((misses_congr p r _ _ (hres k)).1 h))
    exact ⟨x, by rw [hx, hres k], hacq⟩

/-- A call to the loop leaves the hint as it was or stores an index that is
less than the strip count above the index it started from. -/
theorem acquireLoop_hint (p : Pool) (r : Nat) : ∀ fuel idx i, i < p.stripCount_ →
    (p.acquireLoop r fuel idx i).2 = p ∨
      ((p.acquireLoop r fuel idx i).2.currentStrip_ + (i + 1) ≤ idx + p.stripCount_ ∧
        (p.acquireLoop r fuel idx i).2.stripSize_ = p.stripSize_ ∧
        (p.acquireLoop r fuel idx i).2.stripCount_ = p.stripCount_ ∧
        (p.acquireLoop r fuel idx i).2.stripMem_ = p.stripMem_) := by
  intro fuel
  induction fuel with
  | zero => intro idx i _; exact Or.inl rfl
  | succ fuel ih =>
    intro idx i hi
    rw [acquireLoop_succ]
    by_cases hm : p.misses r idx
    · rw [if_pos hm]
      by_cases hl : i + 1 ≥ p.stripCount_
      · rw [if_pos hl]; exact Or.inl rfl
      · rw [if_neg hl]
        rcases ih ((idx + 1) % 2 ^ 64) (i + 1) (by omega) with h | ⟨h, hc⟩
        · exact Or.inl h
        · right
          have := Nat.mod_le (idx + 1) (2 ^ 64)
          exact ⟨by omega, hc⟩
    · rw [if_neg hm]
      right
      refine ⟨?_, carve_config p r idx⟩
      change idx + (i + 1) ≤ idx + p.stripCount_
      omega

theorem acquire_hint (p : Pool) (n : Nat) :
    (p.acquire n).2.currentStrip_ ≤ p.currentStrip_ + (p.stripCount_ - 1) ∧
      (p.acquire n).2.stripSize_ = p.stripSize_ ∧
      (p.acquire n).2.stripCount_ = p.stripCount_ ∧
      (p.acquire n).2.stripMem_ = p.stripMem_ := by
  unfold Pool.acquire
  by_cases hN : p.stripCount_ = 0
  · have h : p.acquireLoop ((n + stripptr_size) % 2 ^ 32) p.stripCount_ p.currentStrip_ 0
        = (none, p) := by rw [hN]; rfl
    rw [h]
    exact ⟨Nat.le_add_right _ _, rfl, rfl, rfl⟩
  · rcases acquireLoop_hint p ((n + stripptr_size) % 2 ^ 32) p.stripCount_ p.currentStrip_ 0
      (by omega) with h | ⟨h, hc⟩
    · rw [h]
      exact ⟨Nat.le_add_right _ _, rfl, rfl, rfl⟩
    · exact ⟨by omega, hc⟩

theorem step_hint (s t : Sys) (op : Op) (hstep : s.step op = some t) :
    sameConfig s t ∧ t.pool.currentStrip_ ≤ s.pool.currentStrip_ + (s.pool.stripCount_ - 1) := by
  cases op with
  | acquire n =>
    rw [step_acquire] at hstep
    obtain ⟨hh, hc⟩ := acquire_hint s.pool n
    generalize s.pool.acquire n = res at *
    obtain ⟨ret, q⟩ := res
    cases ret with
    | none =>
      simp only [Option.some.injEq] at hstep
      subst hstep
      exact ⟨hc, hh⟩
    | some m =>
      simp only [Option.some.injEq] at hstep
      subst hstep
      exact ⟨hc, hh⟩
  | release m =>
    rw [step_release] at hstep
    cases hf : s.live.find? (fun a => a.ptr = m) with
    | none => rw [hf] at hstep; exact absurd hstep (by simp)
    | some a =>
      rw [hf] at hstep
      simp only [Option.some.injEq] at hstep
      subst hstep
      exact ⟨⟨rfl, rfl, rfl⟩, Nat.le_add_right _ _⟩

theorem run_hint (ops : List Op) : ∀ (s t : Sys), s.run ops = some t →
    sameConfig s t ∧
      t.pool.currentStrip_ ≤ s.pool.currentStrip_ + ops.length * (s.pool.stripCount_ - 1) := by
  induction ops with
  | nil =>
    intro s t hrun
    simp only [Sys.run, Option.some.injEq] at hrun
    subst hrun
    exact ⟨sameConfig_refl _, by simp⟩
  | cons op ops ih =>
    intro s t hrun
    simp only [Sys.run] at hrun
    cases hst : s.step op with
    | none => rw [hst] at hrun; exact absurd hrun (by simp)
    | some u =>
      rw [hst] at hrun
      simp only [Option.some_bind] at hrun
      obtain ⟨hcu, hhu⟩ := step_hint s u op hst
      obtain ⟨hct, hht⟩ := ih u t hrun
      refine ⟨sameConfig_trans hcu hct, ?_⟩
      rw [hcu.2.1] at hht
      rw [List.length_cons, Nat.add_mul, Nat.one_mul]
      omega

/-- The hint starts at 0 and every call adds less than the strip count to it:
in a state reached from construction by fewer than `2 ^ 64 / N` calls, a scan
that starts at the hint does not pass `2 ^ 64`. -/
theorem hint_reachable (S N mem : Nat) (hdr0 ptr0 : Mem) (ops : List Op) (t : Sys)
    (hrun : (Sys.init S N mem hdr0 ptr0).run ops = some t)
    (hb : (ops.length + 1) * N ≤ 2 ^ 64) :
    t.pool.currentStrip_ + t.pool.stripCount_ ≤ 2 ^ 64 := by
  obtain ⟨hc, hh⟩ := run_hint ops _ t hrun
  have hN : t.pool.stripCount_ = N := hc.2.1
  have h0 : (Sys.init S N mem hdr0 ptr0).pool.currentStrip_ = 0 := rfl
  have hN0 : (Sys.init S N mem hdr0 ptr0).pool.stripCount_ = N := rfl
  rw [h0, hN0] at hh
  rw [hN]
  have h1 : ops.length * (N - 1) ≤ ops.length * N := Nat.mul_le_mul_left _ (Nat.sub_le _ _)
  rw [Nat.add_mul, Nat.one_mul] at hb
  omega

/-- C2. First-fit result of acquire, sequential model: for every pool state
with `N >= 1` strips and every request `n < 2 ^ 32 - 16`, acquire returns null
exactly when no strip fits; otherwise it returns `stripBase_j + head_j + 16`
for the first fitting strip `j` in the cyclic order `hint mod N,
hint mod N + 1, ...`, wrapping around. The pool state is one in which the
`size_t` strip index keeps its residue modulo `N` during the scan: the scan
does not pass `2 ^ 64`, or `N` divides `2 ^ 64`. The hint starts at 0 and
every call adds less than `N` to it, so this is the case in every state
reached from construction by fewer than `2 ^ 64 / N` calls. -/
theorem acquire_first_fit :
    (∀ (p : Pool) (n : Nat), 1 ≤ p.stripCount_ → n < 2 ^ 32 - 16 →
      (p.currentStrip_ + p.stripCount_ ≤ 2 ^ 64 ∨ 2 ^ 64 % p.stripCount_ = 0) →
      ((p.acquire n).1 = none ↔ ∀ i < p.stripCount_, ¬ p.fits n i) ∧
        ∀ k < p.stripCount_,
          (∀ j < k, ¬ p.fits n ((p.currentStrip_ + j) % p.stripCount_)) →
          p.fits n ((p.currentStrip_ + k) % p.stripCount_) →
          (p.acquire n).1 = some (p.stripAt ((p.currentStrip_ + k) % p.stripCount_)
            + headOf (p.countAndHead (p.stripAt ((p.currentStrip_ + k) % p.stripCount_)))
            + stripptr_size)) ∧
    (∀ (S N mem : Nat) (hdr0 ptr0 : Mem) (ops : List Op) (t : Sys),
      (Sys.init S N mem hdr0 ptr0).run ops = some t → (ops.length + 1) * N ≤ 2 ^ 64 →
      t.pool.currentStrip_ + t.pool.stripCount_ ≤ 2 ^ 64) := by
  refine ⟨?_, fun S N mem hdr0 ptr0 ops t hrun hb =>
    hint_reachable S N mem hdr0 ptr0 ops t hrun hb⟩
  intro p n hN hn hwrap
  have hr : (n + stripptr_size) % 2 ^ 32 = n + 16 := by
    simp only [stripptr_size]; omega
  have hfirst : ∀ k < p.stripCount_,
      (∀ j < k, ¬ p.fits n ((p.currentStrip_ + j) % p.stripCount_)) →
      p.fits n ((p.currentStrip_ + k) % p.stripCount_) →
      ∃ x, x % p.stripCount_ = (p.currentStrip_ + k) % p.stripCount_ ∧
        p.acquire n = p.carve (n + 16) x := by
    intro k hk hmiss hfit
    unfold Pool.acquire
    rw [hr]
    apply acquireLoop_first_fit_any p (n + 16) k p.stripCount_ p.currentStrip_ 0 hk (by omega)
      (by rcases hwrap with h | h; exact Or.inl (by omega); exact Or.inr h)
    · intro j hj
      exact (misses_iff p n _).2 (hmiss j hj)
    · rw [misses_iff]; exact fun h => h hfit
  refine ⟨⟨?_, ?_⟩, ?_⟩
  · intro hnone i hi hfit
    obtain ⟨k0, hk0, hk0i⟩ := scan_reaches p.currentStrip_ p.stripCount_ i hi
    have hex : ∃ k, k < p.stripCount_ ∧ p.fits n ((p.currentStrip_ + k) % p.stripCount_) :=
      ⟨k0, hk0, by rw [hk0i]; exact hfit⟩
    have hspec := Nat.find_spec hex
    have hmin : ∀ j < Nat.find hex, ¬ p.fits n ((p.currentStrip_ + j) % p.stripCount_) := by
      intro j hj hfj
      exact Nat.find_min hex hj ⟨by omega, hfj⟩
    obtain ⟨x, _, hx⟩ := hfirst _ hspec.1 hmin hspec.2
    rw [hx, carve_fst] at hnone
    exact absurd hnone (by simp)
  · intro hall
    unfold Pool.acquire
    rw [hr, acquireLoop_all_miss p (n + 16) hN]
    intro s hs
    have := hall s hs
    unfold Pool.fits stripptr_size at this
    omega
  · intro k hk hmiss hfit
    obtain ⟨x, hxm, hx⟩ := hfirst k hk hmiss hfit
    rw [hx, carve_fst, hxm]

theorem acquire_first_fit_witness :
    ((Pool.init 48 3 0 zeroMem zeroMem).acquire 16).1 = some 24 ∧
      (wrappedHintPool4.acquire 16).1 = some 120 ∧
      ∃ t, (Sys.init 48 3 0 zeroMem zeroMem).run sessionOps = some t ∧
        t.pool.currentStrip_ + t.pool.stripCount_ ≤ 2 ^ 64 :=
  ⟨(acquire_first_fit.1 (Pool.init 48 3 0 zeroMem zeroMem) 16 (by decide) (by decide)
      (Or.inl (by decide))).2 0 (by decide) (by decide) (by decide),
    (acquire_first_fit.1 wrappedHintPool4 16 (by decide) (by decide)
      (Or.inr (by decide))).2 3 (by decide) (by decide) (by decide),
    _, rfl, acquire_first_fit.2 48 3 0 zeroMem zeroMem sessionOps _ rfl (by decide)⟩

/-- Outside that condition the scan can miss a strip: with the hint forced to
`2 ^ 64 - 1`, which no sequence of fewer than `2 ^ 64 / 3` calls reaches, and
three strips, the scan visits strip 0, wraps to index 0, visits strip 0 again
and strip 1, and returns null although strip 2 fits. -/
theorem first_fit_fails_on_wrap :
    1 ≤ wrappedHintPool.stripCount_ ∧ (16 : Nat) < 2 ^ 32 - 16 ∧
      wrappedHintPool.currentStrip_ < 2 ^ 64 ∧ wrappedHintPool.fits 16 2 ∧
      (wrappedHintPool.acquire 16).1 = none := by
  decide

/-! ## Reset round trip -/

theorem pristine_word (w : Nat) (hw : w < 2 ^ 32) (h : pristine w) : w = striphdr_size := by
  have := word_eq_pack w hw
  rw [h.1, h.2] at this
  simpa using this

/-- C5. Reset round trip, sequential model, for a strip size within the
documented maximum `2 ^ 24 - 16`: if `acquire(n)` returns a pointer carved from
a strip that was pristine before the call, then `release` of that pointer
followed by `acquire(n)` returns the same address, and after the release every
header word equals its value before the first acquire. -/
theorem reset_round_trip (p q : Pool) (n m : Nat) (hS : p.stripSize_ ≤ 2 ^ 24 - 16)
    (hacq : p.acquire n = (some m, q))
    (hw : p.countAndHead (q.strip (m - stripptr_size)) < 2 ^ 32)
    (hpr : pristine (p.countAndHead (q.strip (m - stripptr_size)))) :
    ((q.release m).acquire n).1 = some m ∧ (q.release m).countAndHead = p.countAndHead := by
  have hw8 := pristine_word _ hw hpr
  have hNpos : p.stripCount_ ≠ 0 := by
    intro h0
    unfold Pool.acquire at hacq
    rw [h0] at hacq
    exact absurd (congrArg Prod.fst hacq) (by simp [Pool.acquireLoop])
  generalize hrdef : (n + stripptr_size) % 2 ^ 32 = r at *
  have hloop : ∃ x, ¬ p.misses r x ∧ p.carve r x = (some m, q) := by
    unfold Pool.acquire at hacq
    rw [hrdef] at hacq
    rcases acquireLoop_cases p r p.stripCount_ p.currentStrip_ 0 with h | ⟨x, hx, h⟩
    · rw [h] at hacq; exact absurd (congrArg Prod.fst hacq) (by simp)
    · exact ⟨x, hx, by rw [← h]; exact hacq⟩
  obtain ⟨x, hfit, hcarve⟩ := hloop
  have hm : m = p.stripAt (x % p.stripCount_)
      + headOf (p.countAndHead (p.stripAt (x % p.stripCount_))) + stripptr_size := by
    have := congrArg Prod.fst hcarve
    rw [carve_fst] at this
    exact (Option.some.inj this).symm
  have hq := congrArg Prod.snd hcarve
  simp only [Pool.carve] at hq
  generalize hb : p.stripAt (x % p.stripCount_) = b at *
  have hqs : q.strip (m - stripptr_size) = b := by
    rw [← hq, hm]
    simp only [Nat.add_sub_cancel]
    exact Mem.set_same _ _ _
  rw [hqs] at hw8
  have hhead : p.countAndHead b &&& head_mask_ = 8 := by rw [hw8]; decide
  have hfit2 := hfit
  unfold Pool.misses at hfit2
  rw [hb, hw8] at hfit2
  have hh8 : headOf striphdr_size = 8 := by decide
  rw [hh8] at hfit2
  rw [hw8, show (striphdr_size &&& head_mask_) = 8 by decide] at hq
  have hrel : (q.release m).countAndHead = p.countAndHead := by
    unfold Pool.release
    simp only [hqs]
    rw [← hq]
    simp only [Mem.set_same]
    have hword : releaseWord ((striphdr_size + count_inc_ +
        if 8 + (stripptr_align - r % stripptr_align) < p.stripSize_
          then (r + (stripptr_align - r % stripptr_align)) % 2 ^ 32 else r) % 2 ^ 32)
        = striphdr_size := by
      have hpk := releaseWord_pack 1 (8 + if 8 + (8 - r % 8) < p.stripSize_
          then (r + (8 - r % 8)) % 2 ^ 32 else r) (by omega) (by omega)
        (by split <;> omega)
      rw [if_pos rfl] at hpk
      refine Eq.trans (congrArg releaseWord ?_) hpk
      simp only [stripptr_align, striphdr_size, count_inc_]
      split <;> omega
    rw [hword]
    funext a
    by_cases ha : a = b
    · rw [ha, Mem.set_same, hw8]
    · rw [Mem.set_other _ _ _ _ ha, Mem.set_other _ _ _ _ ha]
  refine ⟨?_, hrel⟩
  have hcfg : (q.release m).stripCount_ = p.stripCount_ ∧ (q.release m).currentStrip_ = x ∧
      (q.release m).stripSize_ = p.stripSize_ ∧ (q.release m).stripMem_ = p.stripMem_ := by
    rw [← hq]; exact ⟨rfl, rfl, rfl, rfl⟩
  obtain ⟨f, hf⟩ : ∃ f, p.stripCount_ = f + 1 := ⟨p.stripCount_ - 1, by omega⟩
  have hat : (q.release m).stripAt (x % p.stripCount_) = b := by
    rw [← hb]; unfold Pool.stripAt; rw [hcfg.2.2.1, hcfg.2.2.2]
  have hmiss : ¬ (q.release m).misses r x := by
    unfold Pool.misses
    rw [hcfg.1, hat, hrel, hcfg.2.2.1, hw8, hh8]
    exact hfit2
  unfold Pool.acquire
  rw [hrdef, hcfg.1, hcfg.2.1, hf, acquireLoop_succ, if_neg hmiss, carve_fst, hcfg.1, hat,
    hrel, hm, hw8]

theorem reset_round_trip_witness :
    ((Pool.init 48 3 0 zeroMem zeroMem).acquire 16).1 = some 24 ∧
      (((((Pool.init 48 3 0 zeroMem zeroMem).acquire 16).2).release 24).acquire 16).1 = some 24 :=
  ⟨by decide,
    (reset_round_trip (Pool.init 48 3 0 zeroMem zeroMem)
      ((Pool.init 48 3 0 zeroMem zeroMem).acquire 16).2 16 24 (by decide) rfl (by decide)
      (by decide)).1⟩

/-- C5, as stated, fails beyond the documented strip size: with one strip of
`2 ^ 25` bytes, `acquire(2 ^ 24)` from the pristine strip carries the head into
the count bits (count 2, head 32), so the release does not reset the strip and
the second `acquire(2 ^ 24)` returns offset 48 instead of 24. -/
theorem reset_round_trip_fails_beyond_limit :
    ((Pool.init (2 ^ 25) 1 0 zeroMem zeroMem).acquire (2 ^ 24)).1 = some 24 ∧
      pristine ((Pool.init (2 ^ 25) 1 0 zeroMem zeroMem).countAndHead
        (((Pool.init (2 ^ 25) 1 0 zeroMem zeroMem).acquire (2 ^ 24)).2.strip (24 - stripptr_size))) ∧
      (((((Pool.init (2 ^ 25) 1 0 zeroMem zeroMem).acquire (2 ^ 24)).2).release 24).acquire
        (2 ^ 24)).1 = some 48 ∧
      ((((Pool.init (2 ^ 25) 1 0 zeroMem zeroMem).acquire (2 ^ 24)).2).release 24).countAndHead 0
        = 0x01000020 := by
  decide

/-! ## Exhaustion of a fresh pool -/

theorem reservation_bounds (n : Nat) :
    n + 17 ≤ reservation n ∧ reservation n ≤ n + 24 ∧ reservation n % 8 = 0 := by
  unfold reservation; omega

theorem capacity_fits (S n c : Nat) (hc : c < capacity S n) :
    8 + c * reservation n + (n + 16) ≤ S := by
  unfold capacity at hc
  by_cases h0 : 8 + (n + 16) > S
  · rw [if_pos h0] at hc; omega
  · rw [if_neg h0] at hc
    have h1 : c * reservation n ≤ (S - 8 - (n + 16)) / reservation n * reservation n :=
      Nat.mul_le_mul_right _ (by omega)
    have h2 := Nat.div_mul_le_self (S - 8 - (n + 16)) (reservation n)
    omega

theorem capacity_full (S n : Nat) :
    8 + capacity S n * reservation n + (n + 16) > S := by
  unfold capacity
  by_cases h0 : 8 + (n + 16) > S
  · rw [if_pos h0]; omega
  · rw [if_neg h0, Nat.add_mul, Nat.one_mul]
    have hpos : 0 < reservation n := by have := reservation_bounds n; omega
    have := @Nat.lt_div_mul_add (S - 8 - (n + 16)) (reservation n) hpos
    omega

theorem capacity_span (S n : Nat) : capacity S n * reservation n ≤ S := by
  unfold capacity
  by_cases h0 : 8 + (n + 16) > S
  · rw [if_pos h0]; omega
  · rw [if_neg h0, Nat.add_mul, Nat.one_mul]
    have h2 := Nat.div_mul_le_self (S - 8 - (n + 16)) (reservation n)
    have := reservation_bounds n
    omega

/-- The smallest request, of zero bytes, takes 24 bytes of a strip, so a strip
of `S` bytes holds at most `S / 24` allocations of any one size. -/
theorem capacity_le (S n : Nat) : capacity S n ≤ S / 24 ∧ capacity S 0 = S / 24 := by
  have hrb := reservation_bounds n
  constructor
  · unfold capacity
    by_cases h0 : 8 + (n + 16) > S
    · rw [if_pos h0]; omega
    · rw [if_neg h0]
      have h1 : (S - 8 - (n + 16)) / reservation n ≤ (S - 8 - (n + 16)) / 24 :=
        Nat.div_le_div_left (by omega) (by omega)
      omega
  · have hr0 : reservation 0 = 24 := by decide
    unfold capacity
    rw [hr0]
    split <;> omega

theorem acquireMany_succ (p : Pool) (n m : Nat) :
    p.acquireMany n (m + 1) = ((p.acquire n).1 :: ((p.acquire n).2.acquireMany n m).1,
      ((p.acquire n).2.acquireMany n m).2) := rfl

/-- While no strip has room every call returns null. -/
theorem acquireMany_all_miss (p : Pool) (n : Nat) (hn : n < 2 ^ 32 - 16)
    (hN : 1 ≤ p.stripCount_)
    (hall : ∀ s < p.stripCount_,
      headOf (p.countAndHead (p.stripAt s)) + (n + 16) > p.stripSize_) :
    ∀ extra, (p.acquireMany n extra).1 = List.replicate extra none := by
  have hr : (n + stripptr_size) % 2 ^ 32 = n + 16 := by
    simp only [stripptr_size]; omega
  have hacq : p.acquire n = (none, p) := by
    unfold Pool.acquire
    rw [hr]
    exact acquireLoop_all_miss p (n + 16) hN hall _ _ _
  intro extra
  induction extra with
  | zero => rfl
  | succ e ih => rw [acquireMany_succ, hacq, List.replicate_succ]; simp only [ih]

theorem stripAt_ne (p : Pool) (i j : Nat) (hS : 0 < p.stripSize_) (h : i ≠ j) :
    p.stripAt i ≠ p.stripAt j := by
  rcases Nat.lt_or_gt_of_ne h with h1 | h1
  · have := stripAt_separated p i j h1; omega
  · have := stripAt_separated p j i h1; omega

/-- A strip that is not yet full serves the next request itself. -/
theorem filled_next (S N mem n : Nat) (p : Pool) (j c : Nat) (hn : n < 2 ^ 32 - 16)
    (hS : S ≤ 2 ^ 24 - 16) (hN64 : N < 2 ^ 64) (hk : capacity S n ≤ 255)
    (hF : Filled S N mem n p j c) (hc : c < capacity S n) :
    (p.acquire n).1 = some (mem + j * S + 24 + c * reservation n) ∧
      Filled S N mem n (p.acquire n).2 j (c + 1) := by
  obtain ⟨hpS, hpN, hpM, hhint, hj, _, hbefore, hat, hafter⟩ := hF
  have hr : (n + stripptr_size) % 2 ^ 32 = n + 16 := by
    simp only [stripptr_size]; omega
  have hfitS := capacity_fits S n c hc
  have hspan := capacity_span S n
  have hck : c * reservation n ≤ capacity S n * reservation n :=
    Nat.mul_le_mul_right _ (by omega)
  have hjj : j % p.stripCount_ = j := Nat.mod_eq_of_lt (by omega)
  have hhd : headOf (p.countAndHead (p.stripAt j)) = 8 + c * reservation n := by
    rw [hat]; exact headOf_pack _ _ (by omega)
  have hmiss : ¬ p.misses (n + 16) j := by
    unfold Pool.misses
    rw [hjj, hhd, hpS]; omega
  have hacq : p.acquire n = p.carve (n + 16) j := by
    unfold Pool.acquire
    rw [hr, hhint]
    exact acquireLoop_first_fit p (n + 16) 0 p.stripCount_ j 0 (by omega) (by omega)
      (by omega) (fun _ h => absurd h (by omega)) hmiss
  have hpack := carve_pack p n j c (8 + c * reservation n) hn (by omega) (by omega) (by omega)
    (by rw [hjj]; exact hat) hmiss
  rw [hjj] at hpack
  rw [hacq, hpack]
  have hsa : p.stripAt j = mem + j * S := by unfold Pool.stripAt; rw [hpS, hpM]
  refine ⟨?_, hpS, hpN, hpM, rfl, hj, by omega, ?_, ?_, ?_⟩
  · simp only [hsa]; congr 1; omega
  · intro i hi
    change (p.countAndHead.set (p.stripAt j) _) (p.stripAt i) = _
    rw [Mem.set_other _ _ _ _ (stripAt_ne p i j (by omega) (by omega))]
    exact hbefore i hi
  · change (p.countAndHead.set (p.stripAt j) _) (p.stripAt j) = _
    rw [Mem.set_same, Nat.add_mul c 1 (reservation n), Nat.one_mul]
    unfold reservation
    omega
  · intro i hji hi
    change (p.countAndHead.set (p.stripAt j) _) (p.stripAt i) = _
    rw [Mem.set_other _ _ _ _ (stripAt_ne p i j (by omega) (by omega))]
    exact hafter i hji hi

/-- When the hinted strip is full the next request is served by the pristine
strip after it. -/
theorem filled_advance (S N mem n : Nat) (p : Pool) (j : Nat) (hn : n < 2 ^ 32 - 16)
    (hS : S ≤ 2 ^ 24 - 16) (hN64 : N < 2 ^ 64) (hk1 : 1 ≤ capacity S n)
    (hF : Filled S N mem n p j (capacity S n)) (hj1 : j + 1 < N) :
    (p.acquire n).1 = some (mem + (j + 1) * S + 24) ∧
      Filled S N mem n (p.acquire n).2 (j + 1) 1 := by
  obtain ⟨hpS, hpN, hpM, hhint, hj, _, hbefore, hat, hafter⟩ := hF
  have hr : (n + stripptr_size) % 2 ^ 32 = n + 16 := by
    simp only [stripptr_size]; omega
  have hfitS := capacity_fits S n 0 (by omega)
  have hfull := capacity_full S n
  have hspan := capacity_span S n
  have hjj : j % p.stripCount_ = j := Nat.mod_eq_of_lt (by omega)
  have hjj1 : (j + 1) % p.stripCount_ = j + 1 := Nat.mod_eq_of_lt (by omega)
  have hhd : headOf (p.countAndHead (p.stripAt j)) = 8 + capacity S n * reservation n := by
    rw [hat]; exact headOf_pack _ _ (by omega)
  have hnext : p.countAndHead (p.stripAt (j + 1)) = 0 * 2 ^ 24 + 8 := by
    rw [hafter (j + 1) (by omega) hj1]; rfl
  have hmiss0 : p.misses (n + 16) j := by
    unfold Pool.misses
    rw [hjj, hhd, hpS]; omega
  have hmiss1 : ¬ p.misses (n + 16) (j + 1) := by
    unfold Pool.misses
    rw [hjj1, hnext, headOf_pack 0 8 (by omega), hpS]; omega
  have hacq : p.acquire n = p.carve (n + 16) (j + 1) := by
    unfold Pool.acquire
    rw [hr, hhint]
    refine acquireLoop_first_fit p (n + 16) 1 p.stripCount_ j 0 (by omega) (by omega)
      (by omega) ?_ hmiss1
    intro i hi
    rw [show i = 0 by omega]
    exact hmiss0
  have hpack := carve_pack p n (j + 1) 0 8 hn (by omega) (by omega) (by omega)
    (by rw [hjj1]; exact hnext) hmiss1
  rw [hjj1] at hpack
  rw [hacq, hpack]
  have hsa : p.stripAt (j + 1) = mem + (j + 1) * S := by unfold Pool.stripAt; rw [hpS, hpM]
  refine ⟨?_, hpS, hpN, hpM, rfl, hj1, hk1, ?_, ?_, ?_⟩
  · simp only [hsa]
  · intro i hi
    change (p.countAndHead.set (p.stripAt (j + 1)) _) (p.stripAt i) = _
    rw [Mem.set_other _ _ _ _ (stripAt_ne p i (j + 1) (by omega) (by omega))]
    rcases Nat.lt_or_ge i j with h | h
    · exact hbefore i h
    · rw [show i = j by omega]; exact hat
  · change (p.countAndHead.set (p.stripAt (j + 1)) _) (p.stripAt (j + 1)) = _
    rw [Mem.set_same]
    unfold reservation
    omega
  · intro i hji hi
    change (p.countAndHead.set (p.stripAt (j + 1)) _) (p.stripAt i) = _
    rw [Mem.set_other _ _ _ _ (stripAt_ne p i (j + 1) (by omega) (by omega))]
    exact hafter i (by omega) hi

/-- When the last strip is full no strip has room. -/
theorem filled_exhausted (S N mem n : Nat) (p : Pool) (j : Nat) (hS : S ≤ 2 ^ 24 - 16)
    (hF : Filled S N mem n p j (capacity S n)) (hj1 : j + 1 = N) :
    ∀ s < p.stripCount_, headOf (p.countAndHead (p.stripAt s)) + (n + 16) > p.stripSize_ := by
  obtain ⟨hpS, hpN, hpM, hhint, hj, _, hbefore, hat, hafter⟩ := hF
  have hfull := capacity_full S n
  have hspan := capacity_span S n
  intro s hs
  have hw : p.countAndHead (p.stripAt s)
      = capacity S n * 2 ^ 24 + (8 + capacity S n * reservation n) := by
    rcases Nat.lt_or_ge s j with h | h
    · exact hbefore s h
    · rw [show s = j by omega]; exact hat
  rw [hw, headOf_pack _ _ (by omega), hpS]
  omega

/-- From a filled state the pool serves exactly the remaining capacity, with
increasing addresses, and then returns null. -/
theorem filled_run (S N mem n : Nat) (hn : n < 2 ^ 32 - 16) (hS : S ≤ 2 ^ 24 - 16)
    (hN64 : N < 2 ^ 64) (hk1 : 1 ≤ capacity S n) (hk : capacity S n ≤ 255) :
    ∀ (rem d c j : Nat) (p : Pool), Filled S N mem n p j c → j + d + 1 = N →
      rem = d * capacity S n + (capacity S n - c) → ∀ extra,
      ∃ ptrs : List Nat, ptrs.length = rem ∧ ptrs.Pairwise (fun x y => x < y) ∧
        (∀ x ∈ ptrs, mem + j * S + 24 + c * reservation n ≤ x) ∧
        (p.acquireMany n (rem + extra)).1 = ptrs.map some ++ List.replicate extra none := by
  intro rem
  induction rem with
  | zero =>
    intro d c j p hF hd hrem extra
    have hck : c ≤ capacity S n := hF.2.2.2.2.2.1
    have hd0 : d = 0 := by
      rcases Nat.eq_zero_or_pos d with h | h
      · exact h
      · have := Nat.mul_le_mul_right (capacity S n) h
        omega
    have hc : c = capacity S n := by omega
    subst hc
    refine ⟨[], rfl, List.Pairwise.nil, by simp, ?_⟩
    rw [Nat.zero_add, List.map_nil, List.nil_append]
    exact acquireMany_all_miss p n hn (by rw [hF.2.1]; omega)
      (filled_exhausted S N mem n p j hS hF (by omega)) extra
  | succ rem ih =>
    intro d c j p hF hd hrem extra
    have hck : c ≤ capacity S n := hF.2.2.2.2.2.1
    have hsplit : rem + 1 + extra = (rem + extra) + 1 := by omega
    rw [hsplit, acquireMany_succ]
    by_cases hc : c < capacity S n
    · obtain ⟨hptr, hF2⟩ := filled_next S N mem n p j c hn hS hN64 hk hF hc
      obtain ⟨ptrs, hlen, hpw, hlb, hres⟩ :=
        ih d (c + 1) j (p.acquire n).2 hF2 hd (by omega) extra
      have hmul : (c + 1) * reservation n = c * reservation n + reservation n := by
        rw [Nat.add_mul, Nat.one_mul]
      have hrb := reservation_bounds n
      refine ⟨(mem + j * S + 24 + c * reservation n) :: ptrs, by simp [hlen], ?_, ?_, ?_⟩
      · refine List.pairwise_cons.2 ⟨?_, hpw⟩
        intro x hx
        have := hlb x hx
        omega
      · intro x hx
        rcases List.mem_cons.1 hx with rfl | hx
        · exact Nat.le_refl _
        · have := hlb x hx
          omega
      · simp only [hptr, hres, List.map_cons, List.cons_append]
    · have hceq : c = capacity S n := by omega
      subst hceq
      obtain ⟨e, rfl⟩ : ∃ e, d = e + 1 := by
        rcases Nat.eq_zero_or_pos d with h | h
        · rw [h] at hrem; omega
        · exact ⟨d - 1, by omega⟩
      have hmul : (e + 1) * capacity S n = e * capacity S n + capacity S n := by
        rw [Nat.add_mul, Nat.one_mul]
      obtain ⟨hptr, hF2⟩ :=
        filled_advance S N mem n p j hn hS hN64 hk1 hF (by omega)
      obtain ⟨ptrs, hlen, hpw, hlb, hres⟩ :=
        ih e 1 (j + 1) (p.acquire n).2 hF2 (by omega) (by omega) extra
      have hrb := reservation_bounds n
      have hspan := capacity_span S n
      have hjS : (j + 1) * S = j * S + S := by rw [Nat.add_mul, Nat.one_mul]
      refine ⟨(mem + (j + 1) * S + 24) :: ptrs, by simp [hlen], ?_, ?_, ?_⟩
      · refine List.pairwise_cons.2 ⟨?_, hpw⟩
        intro x hx
        have := hlb x hx
        omega
      · intro x hx
        rcases List.mem_cons.1 hx with rfl | hx
        · omega
        · have := hlb x hx
          omega
      · simp only [hptr, hres, List.map_cons, List.cons_append]

theorem filled_init (S N mem n : Nat) (hdr0 ptr0 : Mem) (hN : 1 ≤ N) :
    Filled S N mem n (Pool.init S N mem hdr0 ptr0) 0 0 := by
  refine ⟨rfl, rfl, rfl, rfl, by omega, by omega, fun i hi => absurd hi (by omega), ?_, ?_⟩
  · rw [init_pristine S N mem hdr0 ptr0 0 (by omega)]; simp [striphdr_size]
  · intro i _ hi
    exact init_pristine S N mem hdr0 ptr0 i hi

/-- C6. Exhaustion determinism, sequential model, for a strip size within the
documented maximum `2 ^ 24 - 16`: on a freshly constructed pool of `N >= 1`
strips of `S` bytes, with `k = capacity S n <= 255`, the first `N * k`
consecutive calls `acquire(n)` return non-null, pairwise distinct pointers and
every further call returns null. -/
theorem exhaustion (S N mem : Nat) (hdr0 ptr0 : Mem) (n extra : Nat) (hN : 1 ≤ N)
    (hN64 : N < 2 ^ 64) (hS : S ≤ 2 ^ 24 - 16) (hn : n < 2 ^ 32 - 16)
    (hk : capacity S n ≤ 255) :
    ∃ ptrs : List Nat, ptrs.length = N * capacity S n ∧ ptrs.Nodup ∧
      ((Pool.init S N mem hdr0 ptr0).acquireMany n (N * capacity S n + extra)).1
        = ptrs.map some ++ List.replicate extra none := by
  by_cases hk0 : capacity S n = 0
  · refine ⟨[], by rw [hk0]; rfl, List.nodup_nil, ?_⟩
    rw [hk0, Nat.mul_zero, Nat.zero_add, List.map_nil, List.nil_append]
    apply acquireMany_all_miss _ n hn hN
    intro s hs
    rw [init_pristine S N mem hdr0 ptr0 s hs]
    have h8 : headOf striphdr_size = 8 := by decide
    rw [h8]
    change 8 + (n + 16) > S
    by_contra hcon
    have hpos : capacity S n = (S - 8 - (n + 16)) / reservation n + 1 := by
      unfold capacity; rw [if_neg hcon]
    rw [hpos] at hk0
    exact Nat.succ_ne_zero _ hk0
  · obtain ⟨e, rfl⟩ : ∃ e, N = e + 1 := ⟨N - 1, by omega⟩
    have hmul : (e + 1) * capacity S n = e * capacity S n + capacity S n := by
      rw [Nat.add_mul, Nat.one_mul]
    obtain ⟨ptrs, hlen, hpw, _, hres⟩ :=
      filled_run S (e + 1) mem n hn hS hN64 (by omega) hk ((e + 1) * capacity S n) e 0 0
        (Pool.init S (e + 1) mem hdr0 ptr0) (filled_init S (e + 1) mem n hdr0 ptr0 hN)
        (by omega) (by omega) extra
    exact ⟨ptrs, hlen, hpw.imp (fun h => Nat.ne_of_lt h), hres⟩

theorem exhaustion_witness :
    capacity 48 16 = 1 ∧ capacity 126 32 = 2 ∧
      ((Pool.init 48 3 0 zeroMem zeroMem).acquireMany 16 5).1
        = [some 24, some 72, some 120, none, none] ∧
      ∃ ptrs : List Nat, ptrs.length = 3 * capacity 126 32 ∧ ptrs.Nodup ∧
        ((Pool.init 126 3 0 zeroMem zeroMem).acquireMany 32 (3 * capacity 126 32 + 4)).1
          = ptrs.map some ++ List.replicate 4 none :=
  ⟨by decide, by decide, by decide,
    exhaustion 126 3 0 zeroMem zeroMem 32 4 (by decide) (by decide) (by decide) (by decide)
      (by decide)⟩

/-- C6, as stated, fails beyond the documented strip size: one strip of
`2 ^ 25` bytes and requests of `2 ^ 24` bytes give `k = 1`, yet the second
consecutive call returns a non-null pointer, because the first call carried
the head into the count bits. -/
theorem exhaustion_fails_beyond_limit :
    capacity (2 ^ 25) (2 ^ 24) = 1 ∧ (2 ^ 24 : Nat) < 2 ^ 32 - 16 ∧
      ((Pool.init (2 ^ 25) 1 0 zeroMem zeroMem).acquireMany (2 ^ 24) 2).1
        = [some 24, some 48] := by
  decide

/-! ## Sizing -/

/-- C11. Sizing is not a round-up: `raw_strip_size()` adds `size % 16` to
`size = S + 24` instead of the distance to the next multiple of 16. For
`S = 95`, the pool of the tests, it gives 126, which is not a multiple of the
maximum alignment; the smallest multiple of 16 that is at least `95 + 24` is
128. For `S = 16` it gives 48. -/
theorem raw_strip_size_not_round_up :
    raw_strip_size 95 = 126 ∧ raw_strip_size 95 % max_align = 14 ∧
      (95 + striphdr_size + stripptr_size + (max_align - 1)) / max_align * max_align = 128 ∧
      raw_strip_size 1 = 34 ∧ raw_strip_size 16 = 48 ∧
      ∀ S, raw_strip_size S
        = ((S + 24) % 2 ^ 64 + (S + 24) % 2 ^ 64 % 16) % 2 ^ 64 := by
  refine ⟨by decide, by decide, by decide, by decide, by decide, fun S => rfl⟩

/-! ## Interleaved executions -/

theorem acquireSteps_succ (p : Pool) (pc : AcquireAt) (k : Nat) :
    p.acquireSteps pc (k + 1) = (p.acquireStep pc).1.acquireSteps (p.acquireStep pc).2 k := rfl

theorem acquireSteps_returned (p : Pool) (ret : Option Nat) : ∀ k,
    p.acquireSteps (.returned ret) k = (p, .returned ret) := by
  intro k
  induction k with
  | zero => rfl
  | succ k ih => rw [acquireSteps_succ]; exact ih

/-- A thread that is not disturbed carves the request in four actions. -/
theorem acquireSteps_carve (p : Pool) (r idx i k : Nat) (hfit : ¬ p.misses r idx) :
    p.acquireSteps (.top r idx i) (k + 4) = ((p.carve r idx).2, .returned (p.carve r idx).1) := by
  have hfit2 : ¬ (p.countAndHead (p.stripAt (idx % p.stripCount_)) &&& head_mask_) + r
      > p.stripSize_ := hfit
  rw [acquireSteps_succ]
  simp only [Pool.acquireStep, if_neg hfit2]
  rw [acquireSteps_succ]
  simp only [Pool.acquireStep, if_true]
  rw [acquireSteps_succ]
  simp only [Pool.acquireStep]
  rw [acquireSteps_succ]
  simp only [Pool.acquireStep]
  rw [acquireSteps_returned]
  rfl

/-- A thread that is not disturbed computes what the sequential loop computes. -/
theorem acquireSteps_loop (p : Pool) (r : Nat) : ∀ fuel idx i k,
    i < p.stripCount_ → p.stripCount_ ≤ fuel + i →
    p.acquireSteps (.top r idx i) (fuel + 3 + k)
      = ((p.acquireLoop r fuel idx i).2, .returned (p.acquireLoop r fuel idx i).1) := by
  intro fuel
  induction fuel with
  | zero => intro idx i k h1 h2; omega
  | succ f ih =>
    intro idx i k h1 h2
    rw [acquireLoop_succ]
    by_cases hm : p.misses r idx
    · have hm2 : (p.countAndHead (p.stripAt (idx % p.stripCount_)) &&& head_mask_) + r
          > p.stripSize_ := hm
      rw [show f + 1 + 3 + k = (f + 3 + k) + 1 by omega, acquireSteps_succ]
      simp only [Pool.acquireStep, if_pos hm2, if_pos hm]
      by_cases hi : i + 1 ≥ p.stripCount_
      · simp only [if_pos hi]
        exact acquireSteps_returned p none _
      · simp only [if_neg hi]
        exact ih _ (i + 1) k (by omega) (by omega)
    · rw [if_neg hm, show f + 1 + 3 + k = (f + k) + 4 by omega]
      exact acquireSteps_carve p r idx i (f + k) hm

/-- The actions of one thread, run without interference, refine the call
`acquire(n)` of the sequential model. -/
theorem acquireSteps_solo (p : Pool) (n k : Nat) (hN : 1 ≤ p.stripCount_) :
    p.acquireSteps (.entry n) (p.stripCount_ + 4 + k)
      = ((p.acquire n).2, .returned (p.acquire n).1) := by
  rw [show p.stripCount_ + 4 + k = (p.stripCount_ + 3 + k) + 1 by omega, acquireSteps_succ]
  simp only [Pool.acquireStep]
  exact acquireSteps_loop p _ p.stripCount_ p.currentStrip_ 0 k (by omega) (by omega)

/-- C16. A successful compare-and-swap of `acquire` does not always have the
effect of the sequential `acquire` on the header at that instant. Two threads
call `acquire(32)` on a fresh pool of three 126-byte strips. Thread 0 loads the
pristine header of strip 0 and adds the padding to its request (48 + 8 = 56);
thread 1 then completes its call; the exchange of thread 0 fails, and its retry
pads the enlarged request again (64). Its second exchange succeeds on the
header `0x01000040` and installs head 128, where the sequential `acquire(32)`
applied to that pool installs head 120. -/
theorem retried_acquire_reserves_more :
    (raceStart.run [0, 0, 1, 1, 1, 1, 1, 0, 0]).threads
        = [.acquiring (.exchange 64 0 0 0x01000040), .acquiring (.returned (some 24))] ∧
      (raceStart.run [0, 0, 1, 1, 1, 1, 1, 0, 0]).pool.countAndHead 0 = 0x01000040 ∧
      ((raceStart.run [0, 0, 1, 1, 1, 1, 1, 0, 0]).step 0).threads
        = [.acquiring (.exchanged 0 0x01000040), .acquiring (.returned (some 24))] ∧
      ((raceStart.run [0, 0, 1, 1, 1, 1, 1, 0, 0]).step 0).pool.countAndHead 0 = 0x02000080 ∧
      ((raceStart.run [0, 0, 1, 1, 1, 1, 1, 0, 0]).pool.acquire 32).2.countAndHead 0
        = 0x02000078 := by
  decide

/-! ## The sizing guarantee -/

/-- When some strip fits and the strip index keeps its residue during the
scan, `acquire` succeeds. -/
theorem acquire_some_of_fits (p : Pool) (n i : Nat) (hn : n < 2 ^ 32 - 16)
    (hwrap : p.currentStrip_ + p.stripCount_ ≤ 2 ^ 64 ∨ 2 ^ 64 % p.stripCount_ = 0)
    (hi : i < p.stripCount_) (hfit : p.fits n i) : ∃ m, (p.acquire n).1 = some m := by
  have hr : (n + stripptr_size) % 2 ^ 32 = n + 16 := by
    simp only [stripptr_size]; omega
  obtain ⟨k0, hk0, hk0i⟩ := scan_reaches p.currentStrip_ p.stripCount_ i hi
  have hex : ∃ k, k < p.stripCount_ ∧ p.fits n ((p.currentStrip_ + k) % p.stripCount_) :=
    ⟨k0, hk0, by rw [hk0i]; exact hfit⟩
  have hspec := Nat.find_spec hex
  have hacq : ∃ x, x % p.stripCount_ = (p.currentStrip_ + Nat.find hex) % p.stripCount_ ∧
      p.acquire n = p.carve (n + 16) x := by
    unfold Pool.acquire
    rw [hr]
    apply acquireLoop_first_fit_any p (n + 16) (Nat.find hex) p.stripCount_ p.currentStrip_ 0
      hspec.1 (by omega)
      (by rcases hwrap with h | h; exact Or.inl (by omega); exact Or.inr h)
    · intro j hj
      rw [misses_iff]
      intro hfj
      exact Nat.find_min hex hj ⟨by omega, hfj⟩
    · rw [misses_iff]; exact fun h => h hspec.2
  obtain ⟨x, _, hx⟩ := hacq
  exact ⟨_, by rw [hx, carve_fst]⟩

theorem raw_strip_size_ge (S : Nat) (hS : S < 2 ^ 32 - 16) : S + 24 ≤ raw_strip_size S := by
  unfold raw_strip_size striphdr_size stripptr_size max_align
  simp only []
  omega

/-- C12. Sizing guarantee: for every target size `S < 2 ^ 32 - 16` and every
strip count, on every state of a pool whose strip size is `raw_strip_size()`
and in which at least one strip is pristine, `acquire(S)` returns a non-null
pointer. The pool state is one in which the `size_t` strip index keeps its
residue modulo the strip count `C` during the scan: the scan does not pass
`2 ^ 64`, or `C` divides `2 ^ 64`. The hint starts at 0 and every call adds
less than `C` to it, so this is the case in every state reached from
construction by fewer than `2 ^ 64 / C` calls. -/
theorem sizing_guarantee :
    (∀ (p : Pool) (S i : Nat), S < 2 ^ 32 - 16 → p.stripSize_ = raw_strip_size S →
      (p.currentStrip_ + p.stripCount_ ≤ 2 ^ 64 ∨ 2 ^ 64 % p.stripCount_ = 0) →
      i < p.stripCount_ → pristine (p.countAndHead (p.stripAt i)) →
      ∃ m, (p.acquire S).1 = some m) ∧
    (∀ (S C mem : Nat) (hdr0 ptr0 : Mem) (ops : List Op) (t : Sys),
      (Sys.init (raw_strip_size S) C mem hdr0 ptr0).run ops = some t →
      (ops.length + 1) * C ≤ 2 ^ 64 →
      t.pool.currentStrip_ + t.pool.stripCount_ ≤ 2 ^ 64) := by
  refine ⟨?_, fun S C mem hdr0 ptr0 ops t hrun hb =>
    hint_reachable (raw_strip_size S) C mem hdr0 ptr0 ops t hrun hb⟩
  intro p S i hS hsize hwrap hi hpr
  apply acquire_some_of_fits p S i hS hwrap hi
  unfold Pool.fits
  have := raw_strip_size_ge S hS
  rw [hpr.2, hsize]
  unfold striphdr_size stripptr_size
  omega

theorem sizing_guarantee_witness :
    (∃ m, ((Pool.init (raw_strip_size 16) 3 0 zeroMem zeroMem).acquire 16).1 = some m) ∧
      (∃ m, (wrappedHintPool4.acquire 16).1 = some m) ∧
      ∃ t, (Sys.init (raw_strip_size 16) 3 0 zeroMem zeroMem).run sessionOps = some t ∧
        t.pool.currentStrip_ + t.pool.stripCount_ ≤ 2 ^ 64 :=
  ⟨sizing_guarantee.1 (Pool.init (raw_strip_size 16) 3 0 zeroMem zeroMem) 16 2 (by decide) rfl
      (Or.inl (by decide)) (by decide) (by decide),
    sizing_guarantee.1 wrappedHintPool4 16 2 (by decide) (by decide) (Or.inr (by decide))
      (by decide) (by decide),
    _, rfl, sizing_guarantee.2 16 3 0 zeroMem zeroMem sessionOps _ rfl (by decide)⟩

/-- Outside that condition a pristine strip can be missed: the pool has the
strip size `raw_strip_size()` of `S = 16`, its strip 2 is pristine, and with
the hint forced to `2 ^ 64 - 1`, which no sequence of fewer than `2 ^ 64 / 3`
calls reaches, the scan of `acquire(16)` never visits strip 2 and returns
null. -/
theorem sizing_guarantee_fails_on_wrap :
    wrappedHintPool.stripSize_ = raw_strip_size 16 ∧ (16 : Nat) < 2 ^ 32 - 16 ∧
      1 ≤ wrappedHintPool.stripCount_ ∧
      pristine (wrappedHintPool.countAndHead (wrappedHintPool.stripAt 2)) ∧
      (wrappedHintPool.acquire 16).1 = none := by
  decide

/-! ## The head addition -/

/-- The state after carving `n + 16` bytes from a strip of a pool whose strip
size is within the documented maximum, whatever its header word. -/
theorem carve_word (p : Pool) (n x : Nat) (hn : n < 2 ^ 32 - 16)
    (hS : p.stripSize_ ≤ 2 ^ 24 - 16) (hfit : ¬ p.misses (n + 16) x) :
    p.carve (n + 16) x = (some (p.stripAt (x % p.stripCount_)
        + headOf (p.countAndHead (p.stripAt (x % p.stripCount_))) + 16),
      { p with
        countAndHead := p.countAndHead.set (p.stripAt (x % p.stripCount_))
          ((p.countAndHead (p.stripAt (x % p.stripCount_)) + count_inc_ + reservation n)
            % 2 ^ 32)
        strip := p.strip.set (p.stripAt (x % p.stripCount_)
          + headOf (p.countAndHead (p.stripAt (x % p.stripCount_))))
          (p.stripAt (x % p.stripCount_))
        currentStrip_ := x }) := by
  unfold Pool.misses at hfit
  unfold Pool.carve
  simp only [stripptr_align, stripptr_size]
  change ¬ (p.countAndHead (p.stripAt (x % p.stripCount_)) &&& head_mask_) + (n + 16)
    > p.stripSize_ at hfit
  have h1 : (p.countAndHead (p.stripAt (x % p.stripCount_)) &&& head_mask_)
      + (8 - (n + 16) % 8) < p.stripSize_ := by omega
  have h2 : (n + 16 + (8 - (n + 16) % 8)) % 2 ^ 32 = reservation n := by
    unfold reservation; omega
  rw [if_pos h1, h2]
  rfl

/-- C14. 24-bit head limit: for every pool with `stripSize <= 2 ^ 24 - 16` and
every request `n < 2 ^ 32 - 16`, a successful acquire leaves the head of the
strip it carved from below `2 ^ 24`: the new head is the old head plus the
reservation, with no carry into the count bits, and the count goes up by one
(modulo 256). -/
theorem head_addition_no_carry (p q : Pool) (n m : Nat) (hS : p.stripSize_ ≤ 2 ^ 24 - 16)
    (hn : n < 2 ^ 32 - 16) (hacq : p.acquire n = (some m, q)) :
    headOf (p.countAndHead (q.strip (m - stripptr_size))) + reservation n < 2 ^ 24 ∧
      headOf (q.countAndHead (q.strip (m - stripptr_size)))
        = headOf (p.countAndHead (q.strip (m - stripptr_size))) + reservation n ∧
      countOf (q.countAndHead (q.strip (m - stripptr_size)))
        = (countOf (p.countAndHead (q.strip (m - stripptr_size))) + 1) % 256 := by
  rcases acquire_cases p n hn with h | ⟨x, _, hfit, h⟩
  · rw [h] at hacq; exact absurd (congrArg Prod.fst hacq) (by simp)
  · rw [h, carve_word p n x hn hS hfit] at hacq
    have hm := (Option.some.inj (congrArg Prod.fst hacq)).symm
    have hq := (congrArg Prod.snd hacq).symm
    simp only at hm hq
    unfold Pool.misses at hfit
    generalize p.stripAt (x % p.stripCount_) = b at *
    have hqs : q.strip (m - stripptr_size) = b := by
      rw [hq, hm]
      simp only [stripptr_size, Nat.add_sub_cancel]
      exact Mem.set_same _ _ _
    have hqw : q.countAndHead b = (p.countAndHead b + count_inc_ + reservation n) % 2 ^ 32 := by
      rw [hq]; exact Mem.set_same _ _ _
    have hrb := reservation_bounds n
    rw [hqs, hqw]
    simp only [headOf_eq, countOf_eq, count_inc_] at *
    omega

theorem head_addition_no_carry_witness :
    headOf (((Pool.init 48 3 0 zeroMem zeroMem).acquire 16).2.countAndHead 0) = 8 + 40 ∧
      countOf (((Pool.init 48 3 0 zeroMem zeroMem).acquire 16).2.countAndHead 0) = 1 :=
  have h := head_addition_no_carry (Pool.init 48 3 0 zeroMem zeroMem)
    ((Pool.init 48 3 0 zeroMem zeroMem).acquire 16).2 16 24 (by decide) (by decide) rfl
  ⟨h.2.1, h.2.2⟩

/-! ## Alignment of heads and pointers -/

theorem carve_aligned (p : Pool) (r x : Nat) (hA : headsAligned p)
    (hS : p.stripSize_ % 8 = 0) (hN : 1 ≤ p.stripCount_) (hfit : ¬ p.misses r x) :
    headsAligned (p.carve r x).2 := by
  intro i hi
  have hb := hA (x % p.stripCount_) (Nat.mod_lt _ (by omega))
  have hi0 := hA i hi
  unfold Pool.misses at hfit
  change headOf ((p.countAndHead.set (p.stripAt (x % p.stripCount_)) _) (p.stripAt i))
    % stripptr_align = 0
  by_cases e : p.stripAt i = p.stripAt (x % p.stripCount_)
  · rw [e, Mem.set_same]
    generalize p.countAndHead (p.stripAt (x % p.stripCount_)) = w at *
    have hw : w &&& head_mask_ = w % 2 ^ 24 := headOf_eq w
    simp only [hw, headOf_eq, stripptr_align, count_inc_] at *
    split <;> omega
  · rw [Mem.set_other _ _ _ _ e]; exact hi0

theorem releaseWord_aligned (w : Nat) (h : headOf w % 8 = 0) : headOf (releaseWord w) % 8 = 0 := by
  unfold releaseWord
  simp only [count_inc_]
  split
  · decide
  · rw [headOf_eq] at *; omega

theorem release_aligned (p : Pool) (m : Nat) (hA : headsAligned p) :
    headsAligned (p.release m) := by
  intro i hi
  have hi0 := hA i hi
  change headOf ((p.countAndHead.set (p.strip (m - stripptr_size)) _) (p.stripAt i))
    % stripptr_align = 0
  by_cases e : p.stripAt i = p.strip (m - stripptr_size)
  · rw [e, Mem.set_same]
    rw [e] at hi0
    exact releaseWord_aligned _ hi0
  · rw [Mem.set_other _ _ _ _ e]; exact hi0

theorem acquire_cases_any (p : Pool) (n : Nat) :
    p.acquire n = (none, p) ∨
      ∃ r x, 1 ≤ p.stripCount_ ∧ ¬ p.misses r x ∧ p.acquire n = p.carve r x := by
  unfold Pool.acquire
  by_cases hN : p.stripCount_ = 0
  · left; rw [hN]; rfl
  · rcases acquireLoop_cases p ((n + stripptr_size) % 2 ^ 32) p.stripCount_ p.currentStrip_ 0
      with h | ⟨x, hx, h⟩
    · exact Or.inl h
    · exact Or.inr ⟨_, x, by omega, hx, h⟩

theorem aligned_step (s t : Sys) (op : Op) (hA : headsAligned s.pool)
    (hS : s.pool.stripSize_ % 8 = 0) (hstep : s.step op = some t) :
    headsAligned t.pool ∧ sameConfig s t := by
  cases op with
  | acquire n =>
    rw [step_acquire] at hstep
    rcases acquire_cases_any s.pool n with h | ⟨r, x, hN, hfit, h⟩
    · rw [h] at hstep
      simp only [Option.some.injEq] at hstep
      subst hstep
      exact ⟨hA, sameConfig_refl _⟩
    · have hal := carve_aligned s.pool r x hA hS hN hfit
      have hcfg := carve_config s.pool r x
      rw [h] at hstep
      generalize s.pool.carve r x = res at *
      obtain ⟨ret, q⟩ := res
      cases ret with
      | none =>
        simp only [Option.some.injEq] at hstep
        subst hstep
        exact ⟨hal, hcfg⟩
      | some m =>
        simp only [Option.some.injEq] at hstep
        subst hstep
        exact ⟨hal, hcfg⟩
  | release m =>
    rw [step_release] at hstep
    cases hf : s.live.find? (fun a => a.ptr = m) with
    | none => rw [hf] at hstep; exact absurd hstep (by simp)
    | some a =>
      rw [hf] at hstep
      simp only [Option.some.injEq] at hstep
      subst hstep
      exact ⟨release_aligned s.pool m hA, rfl, rfl, rfl⟩

theorem aligned_run (ops : List Op) : ∀ (s t : Sys), headsAligned s.pool →
    s.pool.stripSize_ % 8 = 0 → s.run ops = some t → headsAligned t.pool ∧ sameConfig s t := by
  induction ops with
  | nil =>
    intro s t hA _ hrun
    simp only [Sys.run, Option.some.injEq] at hrun
    subst hrun
    exact ⟨hA, sameConfig_refl _⟩
  | cons op ops ih =>
    intro s t hA hS hrun
    simp only [Sys.run] at hrun
    cases hst : s.step op with
    | none => rw [hst] at hrun; exact absurd hrun (by simp)
    | some u =>
      rw [hst] at hrun
      simp only [Option.some_bind] at hrun
      obtain ⟨hAu, hcu⟩ := aligned_step s u op hA hS hst
      obtain ⟨hAt, hct⟩ := ih u t hAu (by rw [hcu.1]; exact hS) hrun
      exact ⟨hAt, sameConfig_trans hcu hct⟩

theorem aligned_init (S N mem : Nat) (hdr0 ptr0 : Mem) :
    headsAligned (Pool.init S N mem hdr0 ptr0) := by
  intro i hi
  rw [init_pristine S N mem hdr0 ptr0 i hi]
  decide

theorem mul_mod_eight (i S : Nat) (hS : S % 8 = 0) : (i * S) % 8 = 0 := by
  rw [Nat.mul_mod, hS, Nat.mul_zero, Nat.zero_mod]

/-- For a pool whose backing buffer is aligned to the maximum alignment 16 and
whose strip size is a multiple of it, every pointer returned by a successful
acquire, in any state reached from construction, lies at a byte offset from
the buffer start that is a multiple of 8, the alignment of the back-pointer
block, and after the acquire the head of every strip is such that the next
pointer returned from it is again a multiple of 8. -/
theorem pointers_aligned_to_8 (S N mem : Nat) (hdr0 ptr0 : Mem) (ops : List Op) (t : Sys)
    (n m : Nat) (q : Pool) (hmem : mem % max_align = 0) (hS : S % max_align = 0)
    (hrun : (Sys.init S N mem hdr0 ptr0).run ops = some t)
    (hacq : t.pool.acquire n = (some m, q)) :
    (∃ off, m = mem + off ∧ off % stripptr_align = 0) ∧ m % stripptr_align = 0 ∧
      ∀ i < N, (i * S + headOf (q.countAndHead (q.stripAt i)) + stripptr_size)
        % stripptr_align = 0 := by
  unfold max_align at hmem hS
  have hS8 : S % 8 = 0 := by omega
  obtain ⟨hA, hcS, hcN, hcM⟩ :=
    aligned_run ops (Sys.init S N mem hdr0 ptr0) t (aligned_init S N mem hdr0 ptr0) hS8 hrun
  change t.pool.stripSize_ = S at hcS
  change t.pool.stripCount_ = N at hcN
  change t.pool.stripMem_ = mem at hcM
  rcases acquire_cases_any t.pool n with h | ⟨r, x, hN, hfit, h⟩
  · rw [h] at hacq; exact absurd (congrArg Prod.fst hacq) (by simp)
  · have hal := carve_aligned t.pool r x hA (by rw [hcS]; exact hS8) hN hfit
    rw [h] at hacq
    have hm : (t.pool.carve r x).1 = some m := congrArg Prod.fst hacq
    rw [carve_fst] at hm
    have hm := (Option.some.inj hm).symm
    have hq : (t.pool.carve r x).2 = q := congrArg Prod.snd hacq
    rw [hq] at hal
    have hqc := carve_config t.pool r x
    rw [hq] at hqc
    have hx := hA (x % t.pool.stripCount_) (Nat.mod_lt _ (by omega))
    have hxS := mul_mod_eight (x % t.pool.stripCount_) S hS8
    unfold Pool.stripAt at hm hx
    rw [hcS, hcM] at hm hx
    unfold stripptr_align stripptr_size at *
    refine ⟨⟨_, by rw [hm, Nat.add_assoc, Nat.add_assoc], by omega⟩, by omega, ?_⟩
    intro i hi
    have hi2 : headOf (q.countAndHead (q.stripAt i)) % 8 = 0 :=
      hal i (by rw [hqc.2.1, hcN]; exact hi)
    have hiS := mul_mod_eight i S hS8
    omega

theorem pointers_aligned_to_8_witness :
    ∃ t, (Sys.init 48 3 0 zeroMem zeroMem).run [.acquire 16] = some t ∧
      (t.pool.acquire 16).1 = some 72 ∧ 72 % stripptr_align = 0 :=
  ⟨_, rfl, by decide,
    (pointers_aligned_to_8 48 3 0 zeroMem zeroMem [.acquire 16] _ 16 72 _ (by decide)
      (by decide) rfl rfl).2.1⟩

/-- C13. Allocations are not aligned to the maximum alignment: on a fresh pool
of three 48-byte strips in a buffer at address 0, as `ArrayStripool<16, 3>`
builds it, `acquire(16)` returns offset 24 (the 8-byte header plus the 16-byte
back-pointer block), which is not a multiple of 16; in 96-byte strips two
calls `acquire(8)` return the offsets 24 and 56. -/
theorem first_pointer_not_max_aligned :
    (0 : Nat) % max_align = 0 ∧ 48 % max_align = 0 ∧
      ((Pool.init 48 3 0 zeroMem zeroMem).acquire 16).1 = some 24 ∧
      (24 - 0) % max_align = 8 ∧
      96 % max_align = 0 ∧
      ((Pool.init 96 3 0 zeroMem zeroMem).acquireMany 8 2).1 = [some 24, some 56] ∧
      (56 - 0) % max_align = 8 := by
  decide

/-! ## The allocation count -/

theorem fillOps_inRange : requestsInRange fillOps := by
  intro n hn
  have := (List.mem_replicate.1 hn).2
  cases this
  omega

theorem withinLimits_6120 : withinLimits 6120 := by
  unfold withinLimits; omega

/-- C15. The 255-allocation cap, for a configuration within the documented
limits: in every state reached from construction by acquire and valid release
calls no strip holds more than 255 live allocations, and a strip whose count
is 255 has no room for any request, so `acquire` leaves its header
unchanged. -/
theorem strip_count_cap (S N mem : Nat) (hdr0 ptr0 : Mem) (ops : List Op) (t : Sys)
    (hL : withinLimits S) (hR : requestsInRange ops)
    (hrun : (Sys.init S N mem hdr0 ptr0).run ops = some t) :
    (∀ i < N, liveIn t.live (t.pool.stripAt i) ≤ 255) ∧
      ∀ n i, n < 2 ^ 32 - 16 → i < N →
        countOf (t.pool.countAndHead (t.pool.stripAt i)) = 255 →
        (t.pool.acquire n).2.countAndHead (t.pool.stripAt i)
          = t.pool.countAndHead (t.pool.stripAt i) := by
  obtain ⟨hI, hS, hN, _⟩ := inv_reachable S N mem hdr0 ptr0 ops t hL hR hrun
  have hL2 : withinLimits t.pool.stripSize_ := by rw [hS]; exact hL
  constructor
  · intro i hi
    obtain ⟨hc, _⟩ := hdrOK_decode _ _ _ _ hL2 (hI.1 i (by omega))
    rw [← hc]
    exact countOf_le _
  · intro n i hn hi hfull
    obtain ⟨_, hlo, _⟩ := hdrOK_decode _ _ _ _ hL2 (hI.1 i (by omega))
    rw [hfull] at hlo
    rcases acquire_cases t.pool n hn with h | ⟨x, _, hfit, h⟩
    · rw [h]
    · rw [h]
      change (t.pool.countAndHead.set (t.pool.stripAt (x % t.pool.stripCount_)) _)
        (t.pool.stripAt i) = _
      by_cases e : t.pool.stripAt i = t.pool.stripAt (x % t.pool.stripCount_)
      · exfalso
        unfold Pool.misses at hfit
        rw [← e] at hfit
        obtain ⟨_, hcap⟩ := hL2
        omega
      · rw [Mem.set_other _ _ _ _ e]

set_option maxRecDepth 100000 in
theorem strip_count_cap_witness :
    ∃ t, (Sys.init 6120 1 0 zeroMem zeroMem).run fillOps = some t ∧
      countOf (t.pool.countAndHead (t.pool.stripAt 0)) = 255 ∧
      (t.pool.acquire 0).2.countAndHead (t.pool.stripAt 0)
        = t.pool.countAndHead (t.pool.stripAt 0) :=
  ⟨_, rfl, by decide,
    (strip_count_cap 6120 1 0 zeroMem zeroMem fillOps _ withinLimits_6120 fillOps_inRange
      rfl).2 0 0 (by decide) (by decide) (by decide)⟩

set_option maxRecDepth 100000 in
/-- C15, as stated, fails for a strip that can hold 256 allocations: on a pool
of one 6144-byte strip, 255 calls `acquire(0)` bring the count to 255 with the
head at 6128; the next `acquire(0)` still fits, returns the pointer at offset
6144 and wraps the count to 0 (header 6152), while 256 allocations are live. -/
theorem count_wraps_at_256 :
    countOf (fullCountPool.countAndHead (fullCountPool.stripAt 0)) = 255 ∧
      headOf (fullCountPool.countAndHead (fullCountPool.stripAt 0)) = 6128 ∧
      (fullCountPool.acquire 0).1 = some 6144 ∧
      (fullCountPool.acquire 0).2.countAndHead (fullCountPool.stripAt 0) = 6152 ∧
      countOf 6152 = 0 ∧
      ((Pool.init 6144 1 0 zeroMem zeroMem).acquireMany 0 256).1
        = (List.range 256).map (fun k => some (24 + 24 * k)) := by
  decide

/-! ## The header codec -/

/-- C22. Packed header update: with `pack c h = c * 2 ^ 24 + h`, for every
header word `pack c h` with `c < 255` and every reservation `r` with
`h + r < 2 ^ 24`, the word `(w + 0x01000000 + r) mod 2 ^ 32` that acquire
installs is `pack (c + 1) (h + r)`; and decoding with the head mask and with
the count mask and shift recovers `c` and `h` from `pack c h` for all
`c <= 255` and `h < 2 ^ 24`. -/
theorem packed_header_update :
    (∀ c h r, c < 255 → h + r < 2 ^ 24 →
      (pack c h + count_inc_ + r) % 2 ^ 32 = pack (c + 1) (h + r)) ∧
    (∀ c h, c ≤ 255 → h < 2 ^ 24 → headOf (pack c h) = h ∧ countOf (pack c h) = c) ∧
    (∀ (p : Pool) (n x c h : Nat), n < 2 ^ 32 - 16 → p.stripSize_ ≤ 2 ^ 24 - 16 → c < 255 →
      h < 2 ^ 24 → p.countAndHead (p.stripAt (x % p.stripCount_)) = pack c h →
      ¬ p.misses (n + 16) x →
      (p.carve (n + 16) x).2.countAndHead (p.stripAt (x % p.stripCount_))
        = pack (c + 1) (h + reservation n)) := by
  refine ⟨?_, ?_, ?_⟩
  · intro c h r hc hr
    unfold pack count_inc_
    omega
  · intro c h hc hh
    exact ⟨headOf_pack c h hh, countOf_pack c h hc hh⟩
  · intro p n x c h hn hS hc hh hw hfit
    rw [carve_pack p n x c h hn hS hc hh hw hfit]
    exact Mem.set_same _ _ _

theorem packed_header_update_witness :
    (pack 1 64 + count_inc_ + 56) % 2 ^ 32 = pack 2 120 ∧
      headOf (pack 255 6128) = 6128 ∧ countOf (pack 255 6128) = 255 ∧
      ((Pool.init 126 3 0 zeroMem zeroMem).carve (32 + 16) 0).2.countAndHead
        ((Pool.init 126 3 0 zeroMem zeroMem).stripAt (0 % 3)) = pack (0 + 1) (8 + reservation 32) :=
  ⟨packed_header_update.1 1 64 56 (by decide) (by decide),
    (packed_header_update.2.1 255 6128 (by decide) (by decide)).1,
    (packed_header_update.2.1 255 6128 (by decide) (by decide)).2,
    packed_header_update.2.2 (Pool.init 126 3 0 zeroMem zeroMem) 32 0 0 8 (by decide)
      (by decide) (by decide) (by decide) (by decide) (by decide)⟩

/-! ## Frame -/

/-- C23. Frame of acquire fails: on a fresh pool of two 48-byte strips at
address 4096, `acquire(16)` takes strip 0 to head 48, the strip size. The call
`acquire(4294967280)` then wraps its request to 0, passes the fit test on
strip 0, installs the header word `0x02000030` there and returns the non-null
pointer `4096 + 64` whose back pointer names strip 0; the 8-byte back pointer
is stored at `strip 0 + 48`, the address of strip 1, so the header word of
strip 1 changes from 8 to 4096 although the memory was returned from
strip 0. -/
theorem acquire_overwrites_next_header :
    (twoStrips.acquire 16).1 = some (4096 + 24) ∧
    twoStripsAcquired.countAndHead (twoStripsAcquired.stripAt 0) = 0x01000030 ∧
    headOf (twoStripsAcquired.countAndHead (twoStripsAcquired.stripAt 0)) = 48 ∧
    twoStripsAcquired.countAndHead (twoStripsAcquired.stripAt 1) = 8 ∧
    (4294967280 : Nat) < 2 ^ 32 ∧
    (twoStripsAcquired.acquire 4294967280).1 = some (4096 + 64) ∧
    twoStripsWrapped.bytes.load (4096 + 64 - stripptr_size) 8 = twoStripsWrapped.stripAt 0 ∧
    twoStripsWrapped.countAndHead (twoStripsWrapped.stripAt 0) = 0x02000030 ∧
    twoStripsWrapped.stripAt 1 ≠ twoStripsWrapped.stripAt 0 ∧
    twoStripsWrapped.countAndHead (twoStripsWrapped.stripAt 1) = 4096 ∧
    twoStripsWrapped.countAndHead (twoStripsWrapped.stripAt 1)
      ≠ twoStripsAcquired.countAndHead (twoStripsAcquired.stripAt 1) := by
  decide

/-! ## The count field -/

/-- C25. Count tracks live allocations: in every state reached from
construction by a sequence of sequential calls, with a strip size within the
documented limits and requests below `2 ^ 32 - 16`, the count field of every
strip's header word is the number of allocations acquired from that strip and
not yet released, and every live allocation belongs to one of the strips. -/
theorem count_tracks_live (S N mem : Nat) (hdr0 ptr0 : Mem) (ops : List Op) (t : Sys)
    (hL : withinLimits S) (hR : requestsInRange ops)
    (hrun : (Sys.init S N mem hdr0 ptr0).run ops = some t) :
    (∀ i < N, countOf (t.pool.countAndHead (t.pool.stripAt i))
      = t.live.countP (fun a => a.owner = t.pool.stripAt i)) ∧
    ∀ a ∈ t.live, ∃ i < N, a.owner = t.pool.stripAt i := by
  obtain ⟨⟨hH, hA, _⟩, _, hN, _⟩ := inv_reachable S N mem hdr0 ptr0 ops t hL hR hrun
  constructor
  · intro i hi
    have hS : t.pool.stripSize_ = S := (inv_reachable S N mem hdr0 ptr0 ops t hL hR hrun).2.1
    have h := hH i (hN ▸ hi)
    rw [hS] at h
    exact (hdrOK_decode S t.live _ _ hL h).1
  · intro a ha
    obtain ⟨⟨i, hi, ho⟩, _⟩ := hA a ha
    exact ⟨i, hN ▸ hi, ho⟩

theorem count_tracks_live_witness :
    ∃ t, (Sys.init 48 3 0 zeroMem zeroMem).run sessionOps = some t ∧
      ∀ i < 3, countOf (t.pool.countAndHead (t.pool.stripAt i))
        = t.live.countP (fun a => a.owner = t.pool.stripAt i) :=
  ⟨_, rfl, (count_tracks_live 48 3 0 zeroMem zeroMem sessionOps _ withinLimits_48
    sessionOps_inRange rfl).1⟩

/-! ## The memory-resource adapter -/

/-- C28. Adapter size fidelity fails: `do_allocate` passes its `size_t` byte
count to the 32-bit parameter of `acquire`. On a fresh pool of one 48-byte
strip at address 0, `do_allocate(2 ^ 32 + 16, 16)` acquires 16 bytes and
returns the non-null pointer at strip offset 24, and `24 + (2 ^ 32 + 16)`
exceeds the strip size of 48. -/
theorem do_allocate_truncates :
    2 ^ 32 + 16 < 2 ^ 64 ∧
    (do_allocate (Pool.init 48 1 0 zeroMem zeroMem) (2 ^ 32 + 16) 16).1 = some 24 ∧
    (do_allocate (Pool.init 48 1 0 zeroMem zeroMem) (2 ^ 32 + 16) 16)
      = (Pool.init 48 1 0 zeroMem zeroMem).acquire 16 ∧
    (Pool.init 48 1 0 zeroMem zeroMem).stripAt 0 = 0 ∧
    ¬ (24 - (Pool.init 48 1 0 zeroMem zeroMem).stripAt 0 + (2 ^ 32 + 16)
      ≤ (Pool.init 48 1 0 zeroMem zeroMem).stripSize_) := by
  refine ⟨by decide, by decide, rfl, by decide, by decide⟩


/-! ## The scan, with the header loads recorded -/

/-- Outside that condition a null scan can repeat a strip: with the hint
forced to `2 ^ 64 - 1`, which no sequence of fewer than `2 ^ 64 / 3` calls
reaches, and three strips that do not fit a request of 16 bytes on the scan
path, acquire returns null after loading the headers of strips 0, 0 and 1. -/
theorem scan_repeats_strip_on_wrap :
    1 ≤ wrappedHintPool.stripCount_ ∧ (wrappedHintPool.acquire 16).1 = none ∧
      wrappedHintPool.acquireLoads 16 = [0, 0, 1] ∧
      (wrappedHintPool.acquireLoads 16).count 0 = 2 ∧
      (wrappedHintPool.acquireLoads 16).count 2 = 0 := by
  decide


/-! ## Heads stay pointer-aligned for requests in range -/

end Stripool

namespace Fnv

theorem fold_ascii (w prime : Nat) (hw : 7 ≤ w) : ∀ (s : List Int) (h : Nat),
    (∀ c ∈ s, 0 ≤ c ∧ c < 128) →
    s.foldl (fun hash b => ((hash ^^^ (b % 2 ^ w).toNat) * prime) % 2 ^ w) h
      = (s.map Int.toNat).foldl (fun h byte => ((h ^^^ byte) * prime) % 2 ^ w) h := by
  intro s
  induction s with
  | nil => intro h _; rfl
  | cons c s ih =>
    intro h hs
    have hc := hs c (List.mem_cons_self _ _)
    have hpow : (128 : Int) ≤ 2 ^ w := by
      have : (2 : Int) ^ 7 ≤ 2 ^ w := pow_le_pow_right₀ (by norm_num) hw
      simpa using this
    have hmod : c % 2 ^ w = c := Int.emod_eq_of_lt hc.1 (by omega)
    simp only [List.foldl_cons, List.map_cons, hmod]
    exact ih _ (fun x hx => hs x (List.mem_cons_of_mem _ hx))

/-- C17. FNV-1a reference on ASCII: for every string of 7-bit ASCII characters
`fnv1a_32` and `fnv1a_64` equal the reference 32-bit and 64-bit FNV-1a hashes
of its bytes; the empty string hashes to the offset basis and `"foobar"` to
`0xbf9cf968` and `0x85944171f73967e8`. -/
theorem fnv1a_ascii :
    (∀ s : List Int, (∀ c ∈ s, 0 ≤ c ∧ c < 128) →
      fnv1a_32 s = reference32 (s.map Int.toNat) ∧
      fnv1a_64 s = reference64 (s.map Int.toNat)) ∧
    fnv1a_32 [] = 0x811c9dc5 ∧ fnv1a_64 [] = 0xcbf29ce484222325 ∧
    fnv1a_32 foobar = 0xbf9cf968 ∧ fnv1a_64 foobar = 0x85944171f73967e8 := by
  refine ⟨?_, by decide, by decide, by decide, by decide⟩
  intro s hs
  constructor
  · exact fold_ascii 32 0x01000193 (by omega) s _ hs
  · exact fold_ascii 64 0x00000100000001b3 (by omega) s _ hs

theorem fnv1a_ascii_witness :
    fnv1a_32 foobar = reference32 (foobar.map Int.toNat) ∧
      fnv1a_64 foobar = reference64 (foobar.map Int.toNat) :=
  fnv1a_ascii.1 foobar (by decide)

/-- C27. FNV-1a on a high-bit character differs from the reference: for the
one-character input whose `char` is `-1` (octet `0xFF`, `char` signed), the
32-bit and the 64-bit hash computed by the code are not the reference FNV-1a
hashes of the octet sequence `[255]`. -/
theorem fnv1a_high_bit_differs :
    (-1 : Int) % 256 = 255 ∧
    fnv1a_32 [-1] = 4193493326 ∧ reference32 [255] = 2047574606 ∧
    fnv1a_64 [-1] = 5808589858502755950 ∧ reference64 [255] = 12638352127299873646 ∧
    fnv1a_32 [-1] ≠ reference32 [255] ∧ fnv1a_64 [-1] ≠ reference64 [255] := by
  refine ⟨by decide, by decide, by decide, by decide, by decide, by decide, by decide⟩

end Fnv

namespace Xenum

theorem foldl_min_le (es : List Int) : ∀ e : Int,
    es.foldl (fun f x => min f x) e ≤ e ∧ ∀ x ∈ es, es.foldl (fun f x => min f x) e ≤ x := by
  induction es with
  | nil => intro e; exact ⟨le_refl _, fun x hx => absurd hx (List.not_mem_nil _)⟩
  | cons a es ih =>
    intro e
    obtain ⟨h1, h2⟩ := ih (min e a)
    simp only [List.foldl_cons]
    refine ⟨le_trans h1 (min_le_left _ _), ?_⟩
    intro x hx
    rcases List.mem_cons.1 hx with rfl | hx
    · exact le_trans h1 (min_le_right _ _)
    · exact h2 x hx

theorem le_foldl_max (es : List Int) : ∀ e : Int,
    e ≤ es.foldl (fun f x => max f x) e ∧ ∀ x ∈ es, x ≤ es.foldl (fun f x => max f x) e := by
  induction es with
  | nil => intro e; exact ⟨le_refl _, fun x hx => absurd hx (List.not_mem_nil _)⟩
  | cons a es ih =>
    intro e
    obtain ⟨h1, h2⟩ := ih (max e a)
    simp only [List.foldl_cons]
    refine ⟨le_trans (le_max_left _ _) h1, ?_⟩
    intro x hx
    rcases List.mem_cons.1 hx with rfl | hx
    · exact le_trans (le_max_right _ _) h1
    · exact h2 x hx

theorem first_le (es : List Int) (e : Int) (he : e ∈ es) : first es ≤ e := by
  cases es with
  | nil => exact absurd he (List.not_mem_nil _)
  | cons a es =>
    rcases List.mem_cons.1 he with rfl | h
    · exact (foldl_min_le es _).1
    · exact (foldl_min_le es a).2 e h

theorem le_last (es : List Int) (e : Int) (he : e ∈ es) : e ≤ last es := by
  cases es with
  | nil => exact absurd he (List.not_mem_nil _)
  | cons a es =>
    rcases List.mem_cons.1 he with rfl | h
    · exact (le_foldl_max es _).1
    · exact (le_foldl_max es a).2 e h

/-- C18. Enum range check: for an enum with the given enumerators and every
value `t` of the underlying type, `try_mk(t)` is `nullopt` exactly when
`t < first().to_ult()` or `t > last().to_ult()`, and otherwise an enum whose
`to_ult()` is `t`; hence `try_mk(e.to_ult()) = e` for every enumerator `e`.
For `Foo = {apple = 10, banana, carrot}`: `try_mk(9)` and `try_mk(13)` are
`nullopt`, `try_mk(10)` is `apple`, `try_mk(12)` is `carrot`. -/
theorem try_mk_range :
    (∀ (es : List Int) (t : Int),
      (try_mk es t = none ↔
        t < (Enum.mk (first es)).to_ult ∨ t > (Enum.mk (last es)).to_ult) ∧
      (try_mk es t ≠ none → ∃ e, try_mk es t = some e ∧ e.to_ult = t)) ∧
    (∀ (es : List Int) (e : Enum), e.to_ult ∈ es → try_mk es e.to_ult = some e) ∧
    try_mk Foo 9 = none ∧ try_mk Foo 10 = some ⟨10⟩ ∧ try_mk Foo 12 = some ⟨12⟩ ∧
    try_mk Foo 13 = none := by
  refine ⟨?_, ?_, by decide, by decide, by decide, by decide⟩
  · intro es t
    unfold try_mk
    by_cases h1 : t < (Enum.mk (first es)).to_ult
    · simp [h1]
    · by_cases h2 : t > (Enum.mk (last es)).to_ult
      · simp [h1, h2]
      · simp only [h1, h2, if_false, or_self, iff_false]
        exact ⟨by simp, fun _ => ⟨⟨t⟩, rfl, rfl⟩⟩
  · intro es e he
    have h1 := first_le es _ he
    have h2 := le_last es _ he
    unfold try_mk
    simp only [Enum.to_ult] at *
    rw [if_neg (by omega), if_neg (by omega)]

theorem try_mk_range_witness :
    try_mk Foo (Enum.mk 11).to_ult = some ⟨11⟩ :=
  try_mk_range.2.1 Foo ⟨11⟩ (by decide)

/-! ## Iteration over the default range -/

theorem conv_inRange (u : Ult) (v : Int) (h1 : u.min ≤ v) (h2 : v ≤ u.max) : u.conv v = v := by
  obtain ⟨s, b⟩ := u
  have hp : (0 : Int) < 2 ^ b := by positivity
  cases s
  · have h1 : (0 : Int) ≤ v := h1
    have h2 : v ≤ 2 ^ b - 1 := h2
    change (v - 0) % 2 ^ b + 0 = v
    rw [Int.emod_eq_of_lt (by omega) (by omega)]
    omega
  · have h1 : -(2 ^ b / 2 : Int) ≤ v := h1
    have h2 : v ≤ 2 ^ b / 2 - 1 := h2
    change (v - -(2 ^ b / 2 : Int)) % 2 ^ b + -(2 ^ b / 2 : Int) = v
    rw [Int.emod_eq_of_lt (by omega) (by omega)]
    omega

theorem plusOne_inRange (u : Ult) (v : Int) (h1 : u.min ≤ v) (h2 : v < u.max) :
    u.plusOne v = some (v + 1) := by
  unfold Ult.plusOne
  have hc := conv_inRange u (v + 1) (by omega) (by omega)
  rw [hc]
  by_cases hb : u.bits < 32
  · rw [if_pos hb]
  · rw [if_neg hb]
    cases hs : u.signed
    · simp
    · simp only [if_true]
      rw [if_pos (by omega)]

theorem forLoop_counts (u : Ult) : ∀ (k bound : Nat) (v : Int), k < bound → u.min ≤ v →
    v + k ≤ u.max →
    forLoop u (v + k) bound v = some ((List.range k).map (fun j : Nat => (⟨v + (j : Int)⟩ : Enum))) := by
  intro k
  induction k with
  | zero =>
    intro bound v hb _ _
    obtain ⟨b, rfl⟩ : ∃ b, bound = b + 1 := ⟨bound - 1, by omega⟩
    simp [forLoop]
  | succ k ih =>
    intro bound v hb h1 h2
    obtain ⟨b, rfl⟩ : ∃ b, bound = b + 1 := ⟨bound - 1, by omega⟩
    have hne : v ≠ v + ((k + 1 : Nat) : Int) := by push_cast; omega
    have hp := plusOne_inRange u v h1 (by push_cast at h2; omega)
    have hstop : v + ((k + 1 : Nat) : Int) = (v + 1) + (k : Int) := by push_cast; omega
    have hrec := ih b (v + 1) (by omega) (by omega) (by push_cast at h2; omega)
    unfold forLoop
    rw [if_pos hne, hp, Option.some_bind, hstop, hrec, Option.map_some']
    rw [List.range_succ_eq_map, List.map_cons, List.map_map]
    congr 2
    · simp
    · apply List.map_congr_left
      intro j _
      simp only [Function.comp, Enum.mk.injEq]
      push_cast
      omega

/-- The enumerators of a contiguous declaration are as many as the values
from the least to the greatest. -/
theorem count_eq_span (decl : Decl) (hne : decl ≠ []) (hc : contiguous decl) :
    (count decl : Int) = last (values decl) - first (values decl) + 1 := by
  have hfin : (values decl).toFinset = Finset.Icc (first (values decl)) (last (values decl)) := by
    ext v
    rw [List.mem_toFinset, Finset.mem_Icc]
    exact ⟨fun h => ⟨first_le _ _ h, le_last _ _ h⟩, fun h => hc.2 v h.1 h.2⟩
  have hcard := List.toFinset_card_of_nodup hc.1
  rw [hfin, Int.card_Icc] at hcard
  have hlen : (values decl).length = count decl := by
    unfold values count
    exact List.length_map _ _
  have hmem : ∃ v, v ∈ values decl := by
    cases decl with
    | nil => exact absurd rfl hne
    | cons d ds => exact ⟨d.2, List.mem_cons_self _ _⟩
  obtain ⟨v, hv⟩ := hmem
  have h1 := first_le _ _ hv
  have h2 := le_last _ _ hv
  omega

/-- With distinct values the `switch` of `to_string` selects the enumerator
that declares the value. -/
theorem find_declared : ∀ (decl : Decl), (values decl).Nodup → ∀ d ∈ decl,
    decl.find? (fun x => x.2 = d.2) = some d := by
  intro decl
  induction decl with
  | nil => intro _ d hd; exact absurd hd (List.not_mem_nil _)
  | cons a ds ih =>
    intro hnd d hd
    have hnd2 : a.2 ∉ values ds ∧ (values ds).Nodup := List.nodup_cons.1 hnd
    rcases List.mem_cons.1 hd with rfl | hd
    · simp
    · have hne : a.2 ≠ d.2 := by
        intro e
        exact hnd2.1 (e ▸ List.mem_map_of_mem Prod.snd hd)
      rw [List.find?_cons_of_neg _ (by simpa using hne)]
      exact ih hnd2.2 d hd

/-- Iteration over the default `range()` when the greatest enumerator is
below the greatest value of the underlying type: for an enum whose enumerator
values are contiguous, distinct and in the range of the underlying type, the
loop ends and visits the values `first()`, `first() + 1`, ..., `last()` in
that order, which is every enumerator exactly once; the number of iterations
is `count()`; and `to_string()` of each visited value is the name of the
enumerator that declares it. -/
theorem enum_iteration (u : Ult) (name : String) (decl : Decl) (bound : Nat)
    (hne : decl ≠ []) (hc : contiguous decl)
    (hr : ∀ v ∈ values decl, u.min ≤ v ∧ v ≤ u.max)
    (hlast : last (values decl) < u.max) (hb : count decl < bound) :
    ∃ visited, iterate u decl bound = some visited ∧
      visited.length = count decl ∧
      visited.map Enum.to_ult
        = (List.range (count decl)).map (fun k : Nat => first (values decl) + (k : Int)) ∧
      first (values decl) + ((count decl - 1 : Nat) : Int) = last (values decl) ∧
      (∀ d ∈ decl, visited.count ⟨d.2⟩ = 1) ∧
      (∀ e ∈ visited, ∃ d ∈ decl, d.2 = e.to_ult ∧ to_string name decl e = d.1) := by
  have hspan := count_eq_span decl hne hc
  obtain ⟨v0, hv0⟩ : ∃ v, v ∈ values decl := by
    cases decl with
    | nil => exact absurd rfl hne
    | cons d ds => exact ⟨d.2, List.mem_cons_self _ _⟩
  have hfl : first (values decl) ≤ last (values decl) :=
    le_trans (first_le _ _ hv0) (le_last _ _ hv0)
  have hfirst : first (values decl) ∈ values decl := hc.2 _ (le_refl _) hfl
  have hlastm : last (values decl) ∈ values decl := hc.2 _ hfl (le_refl _)
  have hstop : (range decl).stop u = some (first (values decl) + (count decl : Int)) := by
    have h := plusOne_inRange u (last (values decl)) (hr _ hlastm).1 hlast
    have e : last (values decl) + 1 = first (values decl) + (count decl : Int) := by omega
    rw [← e]
    exact h
  have hloop := forLoop_counts u (count decl) bound (first (values decl)) hb
    (hr _ hfirst).1 (by omega)
  refine ⟨(List.range (count decl)).map (fun j : Nat => (⟨first (values decl) + (j : Int)⟩ : Enum)),
    ?_, ?_, ?_, ?_, ?_, ?_⟩
  · unfold iterate
    rw [hstop, Option.some_bind]
    exact hloop
  · rw [List.length_map, List.length_range]
  · rw [List.map_map]
    rfl
  · have hpos : 1 ≤ count decl := by omega
    push_cast [hpos]
    omega
  · intro d hd
    have hdv : d.2 ∈ values decl := List.mem_map_of_mem Prod.snd hd
    have h1 := first_le _ _ hdv
    have h2 := le_last _ _ hdv
    apply List.count_eq_one_of_mem
    · rw [List.nodup_map_iff_inj_on (List.nodup_range _)]
      intro a _ b _ hab
      have : first (values decl) + (a : Int) = first (values decl) + (b : Int) :=
        congrArg Enum.value_ hab
      omega
    · refine List.mem_map.2 ⟨(d.2 - first (values decl)).toNat, ?_, ?_⟩
      · rw [List.mem_range]
        omega
      · congr 1
        omega
  · intro e he
    obtain ⟨j, hj, rfl⟩ := List.mem_map.1 he
    rw [List.mem_range] at hj
    have hin : first (values decl) + (j : Int) ∈ values decl :=
      hc.2 _ (by omega) (by omega)
    obtain ⟨d, hd, hd2⟩ := List.mem_map.1 hin
    refine ⟨d, hd, hd2, ?_⟩
    have hf := find_declared decl hc.1 d hd
    unfold to_string
    change (match decl.find? (fun x => x.2 = first (values decl) + (j : Int)) with
      | some d => d.1
      | none => "?" ++ name ++ "?") = d.1
    rw [← hd2, hf]

theorem enum_iteration_witness :
    iterate Ult.int FooDecl 4 = some [⟨10⟩, ⟨11⟩, ⟨12⟩] ∧ count FooDecl = 3 ∧
      to_string "Foo" FooDecl ⟨11⟩ = "banana" ∧
      ∃ visited, iterate Ult.int FooDecl 4 = some visited ∧
        visited.length = count FooDecl ∧
        visited.map Enum.to_ult
          = (List.range (count FooDecl)).map (fun k : Nat => first (values FooDecl) + (k : Int)) ∧
        first (values FooDecl) + ((count FooDecl - 1 : Nat) : Int) = last (values FooDecl) ∧
        (∀ d ∈ FooDecl, visited.count ⟨d.2⟩ = 1) ∧
        (∀ e ∈ visited, ∃ d ∈ FooDecl, d.2 = e.to_ult ∧ to_string "Foo" FooDecl e = d.1) :=
  ⟨by decide, by decide, by decide,
    enum_iteration Ult.int "Foo" FooDecl 4 (by decide)
      ⟨by decide, fun v h1 h2 => by
        have h1 : (10 : Int) ≤ v := h1
        have h2 : v ≤ 12 := h2
        have : v = 10 ∨ v = 11 ∨ v = 12 := by omega
        rcases this with rfl | rfl | rfl <;> decide⟩
      (by decide) (by decide) (by decide)⟩

/-- C21. Enum iteration fails on an enum whose greatest enumerator is the
greatest value of `int`: for `xul_enum(Top, int, (almost, 2147483646), most)`,
whose two values are contiguous and distinct, the end iterator of the default
`range()` computes `2147483647 + 1` in `int`, which overflows, so the loop has
no defined result whatever the bound, where the claim has it visit `almost`
and `most`. -/
theorem iteration_overflows_at_int_max :
    contiguous TopDecl ∧ values TopDecl = [2147483646, 2147483646 + 1] ∧
      (∀ v ∈ values TopDecl, Ult.int.min ≤ v ∧ v ≤ Ult.int.max) ∧
      first (values TopDecl) = 2147483646 ∧ last (values TopDecl) = Ult.int.max ∧
      (range TopDecl).stop Ult.int = none ∧
      ∀ bound, iterate Ult.int TopDecl bound = none := by
  refine ⟨⟨by decide, ?_⟩, by decide, by decide, by decide, by decide, by decide, fun _ => rfl⟩
  intro v h1 h2
  have h1 : (2147483646 : Int) ≤ v := h1
  have h2 : v ≤ 2147483647 := h2
  have : v = 2147483646 ∨ v = 2147483647 := by omega
  rcases this with rfl | rfl <;> decide

end Xenum

namespace Variadic

theorem tlist_left_mk_eq {α : Type} : ∀ (i : Nat) (ts vs : List α),
    tlist_left_mk i ts vs = if i < ts.length then some (vs ++ ts.take i) else none := by
  intro i
  induction i with
  | zero =>
    intro ts vs
    cases ts with
    | nil => simp [tlist_left_mk]
    | cons u us => simp [tlist_left_mk]
  | succ i ih =>
    intro ts vs
    cases ts with
    | nil => simp [tlist_left_mk]
    | cons u us =>
      simp only [tlist_left_mk, ih, List.length_cons, List.take_succ_cons,
        Nat.add_lt_add_iff_right, List.append_assoc, List.singleton_append]

/-- C19. Typelist left: `tlist_left_t<n, L>` is the list of the `n` leftmost
elements of `L` when `n` is less than the size of `L`, and has no type when
`n` is the size of `L` or more: `tlist_left<2, tlist<int, char, bool>>` is
`tlist<int, char>`, `tlist_left<3, tlist<int, char, bool>>` and
`tlist_left<0, tlist<>>` are ill-formed. -/
theorem tlist_left_needs_spare_type :
    (∀ (n : Nat) (ts : List Ty),
      tlist_left_t n ts = if n < ts.length then some (ts.take n) else none) ∧
    tlist_left_t 2 [Ty.int, Ty.char, Ty.bool] = some [Ty.int, Ty.char] ∧
    tlist_left_t 3 [Ty.int, Ty.char, Ty.bool] = none ∧
    tlist_left_t 0 ([] : List Ty) = none := by
  refine ⟨?_, by decide, by decide, by decide⟩
  intro n ts
  unfold tlist_left_t
  rw [tlist_left_mk_eq]
  simp

/-- C20. Typelist right: `tlist_right_t<n, L>` is the list of the `n` rightmost
elements of `L` only for `n = size - 1`. For `L = tlist<int, bool, char>` the
alias gives `tlist<bool, char>` for `n = 2`, but also for `n = 1` and `n = 0`,
and `tlist<char>` for `n = 3`. -/
theorem tlist_right_drops_one :
    tlist_right_t 2 [Ty.int, Ty.bool, Ty.char] = some [Ty.bool, Ty.char] ∧
    tlist_right_t 1 [Ty.int, Ty.bool, Ty.char] = some [Ty.bool, Ty.char] ∧
    tlist_right_t 0 [Ty.int, Ty.bool, Ty.char] = some [Ty.bool, Ty.char] ∧
    tlist_right_t 3 [Ty.int, Ty.bool, Ty.char] = some [Ty.char] ∧
    (∀ (n : Nat) (u : Ty) (us : List Ty),
      tlist_right_t n (u :: us) =
        if (us.length + 1 - n) % 2 ^ 32 = 0 then (if us = [] then none else some us.tail)
        else some us) := by
  refine ⟨by decide, by decide, by decide, by decide, ?_⟩
  intro n u us
  unfold tlist_right_t
  simp only [List.length_cons, tlist_right_mk]
  by_cases h0 : (us.length + 1 - n) % 2 ^ 32 = 0
  · rw [if_pos h0, if_pos h0, h0]
    cases us with
    | nil => simp [tlist_right_mk]
    | cons v vs => simp [tlist_right_mk]
  · rw [if_neg h0, if_neg h0]

end Variadic
